import Mathlib

/-!
# E20 cache simulator (`simcache.cpp`): cache banks, cache hierarchy, execution engine

A shallow embedding of the `Cache` class, of the two routing functions `l1_cache` and
`l1_l2_cache`, and of the engine `threeRegInstr`, `twoRegInstr`, `simulate`.

* C++ `int` values are `Int`; `/` and `%` on `int` are the truncating
  `Int.tdiv` and `Int.tmod`.
* `vector<vector<tuple<int,int>>>` is a list of rows, a row is a list of
  ways, a way is the pair `(lru, tag)`.
* The global `cycle_counter` is read by the cache but only written by
  `simulate`; the cache functions take its current value as an argument.
* `print_log_entry` writes one line to standard output; the embedding
  returns the list of printed lines, each line kept as its five arguments.
* Indexing a vector out of range and dividing by zero are undefined in the
  source.  The embedding is total (a default way, a no-op write, `x / 0 = 0`)
  and the theorems assume `Cache.WF`, under which none of these is reached.
-/

namespace SimCache

/-! ## Constants -/

def opLw : Nat := 32768

def opSw : Nat := 40960

/-! ## The `Cache` class -/

/-- The private fields of `class Cache`. -/
structure Cache where
  size : Int
  assoc : Int
  blocksize : Int
  num_rows : Int
  cache : List (List (Int × Int))
deriving DecidableEq, Repr

namespace Cache

/-- Read `cache[index][i]`. -/
def way (c : Cache) (index i : Int) : Int × Int :=
  (c.cache.getD index.toNat []).getD i.toNat (0, -1)

/-- Write `cache[index][i] = w`. -/
def setWay (c : Cache) (index i : Int) (w : Int × Int) : Cache :=
  { c with cache := c.cache.set index.toNat ((c.cache.getD index.toNat []).set i.toNat w) }

/-- Constructor `Cache(size, assoc, blocksize)`: `num_rows` rows, each of `assoc`
ways `(0, -1)`. -/
def new (size assoc blocksize : Int) : Cache :=
  { size := size
    assoc := assoc
    blocksize := blocksize
    num_rows := Int.tdiv size (assoc * blocksize)
    cache := List.replicate (Int.tdiv size (assoc * blocksize)).toNat
      (List.replicate assoc.toNat (0, -1)) }

/-- Source `get_row`: the row of an address. -/
def get_row (c : Cache) (address : Int) : Int :=
  Int.tmod (Int.tdiv address c.blocksize) c.num_rows

/-- Source `update_lru`: every way of row `index` holding `tag` gets the current
`cycle_counter` as its lru value. -/
def update_lru (c : Cache) (cycle_counter : Int) (_addr index tag : Int) : Cache :=
  (List.range c.assoc.toNat).foldl
    (fun (st : Cache) (i : Nat) =>
      if tag = (st.way index i).2 then
        st.setWay index i (cycle_counter, (st.way index i).2)
      else st)
    c

/-- Source `get_lru`: scan of row `index` with a strict `<`, starting from way 0. The
state of the loop is `(least, least_ind)`. -/
def get_lru (c : Cache) (_addr index : Int) : Int :=
  ((List.range c.assoc.toNat).foldl
    (fun (st : Int × Int) (i : Nat) =>
      if (c.way index i).1 < st.1 then ((c.way index i).1, (i : Int)) else st)
    ((c.way index 0).1, 0)).2

/-- The counting loop of `eviction`; the state is `(capacity, empty_index)`. -/
def capacity_scan (c : Cache) (index : Int) : Int × Int :=
  (List.range c.assoc.toNat).foldl
    (fun (st : Int × Int) (i : Nat) =>
      if (c.way index i).2 ≠ -1 then (st.1 + 1, st.2) else (st.1, (i : Int)))
    (0, 0)

/-- Source `eviction`: install `tag` in row `index` after a miss. -/
def eviction (c : Cache) (cycle_counter : Int) (addr index tag : Int) : Cache :=
  if c.assoc = 1 then
    c.setWay index 0 (0, tag)
  else
    update_lru
      (if (c.capacity_scan index).1 ≠ c.assoc then
        c.setWay index (c.capacity_scan index).2 (cycle_counter, tag)
      else
        c.setWay index (c.get_lru addr index) (cycle_counter, tag))
      cycle_counter addr index tag

/-- Source `cache_lookup`: the returned flag is `true` on a hit; the second component
is the cache after the call. The associative search loop returns at the first
matching way, after `update_lru`; its body changes nothing before that. -/
def cache_lookup (c : Cache) (cycle_counter : Int) (addr : Int) : Bool × Cache :=
  if c.assoc = 1 then
    if (c.way (Int.tmod (Int.tdiv addr c.blocksize) c.num_rows) 0).2
        = Int.tdiv (Int.tdiv addr c.blocksize) c.num_rows then
      (true, c)
    else
      (false, c.eviction cycle_counter addr
        (Int.tmod (Int.tdiv addr c.blocksize) c.num_rows)
        (Int.tdiv (Int.tdiv addr c.blocksize) c.num_rows))
  else
    if (List.range c.assoc.toNat).any (fun i =>
        decide ((c.way (Int.tmod (Int.tdiv addr c.blocksize) c.num_rows) i).2
          = Int.tdiv (Int.tdiv addr c.blocksize) c.num_rows)) then
      (true, c.update_lru cycle_counter addr
        (Int.tmod (Int.tdiv addr c.blocksize) c.num_rows)
        (Int.tdiv (Int.tdiv addr c.blocksize) c.num_rows))
    else
      (false, c.eviction cycle_counter addr
        (Int.tmod (Int.tdiv addr c.blocksize) c.num_rows)
        (Int.tdiv (Int.tdiv addr c.blocksize) c.num_rows))

/-! ### Vocabulary used to state properties of the cache -/

/-- Row `index` of the cache, `cache[index]`. -/
def row (c : Cache) (index : Int) : List (Int × Int) :=
  c.cache.getD index.toNat []

/-- The cache with `cache[index]` replaced by `r`. -/
def withRow (c : Cache) (index : Int) (r : List (Int × Int)) : Cache :=
  { c with cache := c.cache.set index.toNat r }

/-- The tag of an address, `(addr / blocksize) / num_rows`, as computed in
`cache_lookup`. -/
def tag_of (c : Cache) (addr : Int) : Int :=
  Int.tdiv (Int.tdiv addr c.blocksize) c.num_rows

/-- Some way `i < assoc` of row `index` holds `tag`. -/
def holds (c : Cache) (index tag : Int) : Bool :=
  (List.range c.assoc.toNat).any (fun i => decide ((c.way index i).2 = tag))

/-- The block of `addr` is resident: some way of its row holds its tag. -/
def resident (c : Cache) (addr : Int) : Bool :=
  c.holds (c.get_row addr) (c.tag_of addr)

/-- What `update_lru` does to one way. -/
def refresh (cycle_counter tag : Int) (w : Int × Int) : Int × Int :=
  if tag = w.2 then (cycle_counter, w.2) else w

/-- A cache the member functions can run on without undefined behaviour: positive
geometry, `num_rows` rows, `assoc` ways in each row. -/
def WF (c : Cache) : Prop :=
  1 ≤ c.assoc ∧ 1 ≤ c.blocksize ∧ 1 ≤ c.num_rows ∧
    c.cache.length = c.num_rows.toNat ∧ ∀ r ∈ c.cache, r.length = c.assoc.toNat

instance (c : Cache) : Decidable c.WF := by
  unfold WF; infer_instance

end Cache

/-! ## Trace lines and the two routing functions -/

/-- One line printed by `print_log_entry`. -/
structure LogEntry where
  cache_name : String
  status : String
  pc : Int
  addr : Int
  row : Int
deriving DecidableEq, Repr

/-- Source `print_log_entry`, returning the line instead of printing it. -/
def print_log_entry (cache_name status : String) (pc addr row : Int) : LogEntry :=
  { cache_name := cache_name, status := status, pc := pc, addr := addr, row := row }

/-- Source `l1_cache`: one simulated cache. `address` and `opCode` are `uint16_t`. -/
def l1_cache (L1Cache : Cache) (cycle_counter : Int) (address opCode : Nat) (pc : Int) :
    Cache × List LogEntry :=
  if opCode = opLw then
    if (L1Cache.cache_lookup cycle_counter address).1 then
      ((L1Cache.cache_lookup cycle_counter address).2,
        [print_log_entry "L1" "HIT" pc address (L1Cache.get_row address)])
    else
      ((L1Cache.cache_lookup cycle_counter address).2,
        [print_log_entry "L1" "MISS" pc address (L1Cache.get_row address)])
  else if opCode = opSw then
    ((L1Cache.cache_lookup cycle_counter address).2,
      [print_log_entry "L1" "SW" pc address (L1Cache.get_row address)])
  else
    (L1Cache, [])

/-- Source `l1_l2_cache`: two simulated caches. The result is
`((L1Cache, L2Cache), printed lines)`. Every opcode other than `opSw` takes the
load branch. -/
def l1_l2_cache (L1Cache L2Cache : Cache) (cycle_counter : Int) (address opCode : Nat)
    (pc : Int) : (Cache × Cache) × List LogEntry :=
  if opCode = opSw then
    (((L1Cache.cache_lookup cycle_counter address).2,
      (L2Cache.cache_lookup cycle_counter address).2),
      [print_log_entry "L1" "SW" pc address (L1Cache.get_row address),
       print_log_entry "L2" "SW" pc address (L2Cache.get_row address)])
  else if (L1Cache.cache_lookup cycle_counter address).1 then
    (((L1Cache.cache_lookup cycle_counter address).2, L2Cache),
      [print_log_entry "L1" "HIT" pc address (L1Cache.get_row address)])
  else if (L2Cache.cache_lookup cycle_counter address).1 then
    (((L1Cache.cache_lookup cycle_counter address).2,
      (L2Cache.cache_lookup cycle_counter address).2),
      [print_log_entry "L1" "MISS" pc address (L1Cache.get_row address),
       print_log_entry "L2" "HIT" pc address (L2Cache.get_row address)])
  else
    ((((L1Cache.cache_lookup cycle_counter address).2.cache_lookup cycle_counter address).2,
      (L2Cache.cache_lookup cycle_counter address).2),
      [print_log_entry "L1" "MISS" pc address (L1Cache.get_row address),
       print_log_entry "L2" "MISS" pc address (L2Cache.get_row address)])

/-! ## Sequences of accesses

`simulate` increments `cycle_counter` once per instruction and `twoRegInstr` routes each
`lw`/`sw` to the cache functions. The drivers below replay a list of accesses. -/

/-- A sequence of `cache_lookup` calls on one cache, each given as
`(cycle_counter, addr)`; the result is the cache after the last call. -/
def Cache.probes (c : Cache) (ps : List (Int × Int)) : Cache :=
  ps.foldl (fun st p => (st.cache_lookup p.1 p.2).2) c

/-- A sequence of accesses `(address, opCode, pc)` through `l1_cache`, the cycle counter
increased by one before each access; returns the cache and the whole trace. -/
def run_l1 (L1Cache : Cache) (cycle_counter : Int) :
    List (Nat × Nat × Int) → Cache × List LogEntry
  | [] => (L1Cache, [])
  | acc :: rest =>
    ((run_l1 (l1_cache L1Cache (cycle_counter + 1) acc.1 acc.2.1 acc.2.2).1
        (cycle_counter + 1) rest).1,
      (l1_cache L1Cache (cycle_counter + 1) acc.1 acc.2.1 acc.2.2).2 ++
        (run_l1 (l1_cache L1Cache (cycle_counter + 1) acc.1 acc.2.1 acc.2.2).1
          (cycle_counter + 1) rest).2)

/-- A sequence of accesses `(address, opCode, pc)` through `l1_l2_cache`, the cycle
counter increased by one before each access; returns both caches and the whole trace. -/
def run_l1_l2 (L1Cache L2Cache : Cache) (cycle_counter : Int) :
    List (Nat × Nat × Int) → (Cache × Cache) × List LogEntry
  | [] => ((L1Cache, L2Cache), [])
  | acc :: rest =>
    ((run_l1_l2 (l1_l2_cache L1Cache L2Cache (cycle_counter + 1) acc.1 acc.2.1 acc.2.2).1.1
        (l1_l2_cache L1Cache L2Cache (cycle_counter + 1) acc.1 acc.2.1 acc.2.2).1.2
        (cycle_counter + 1) rest).1,
      (l1_l2_cache L1Cache L2Cache (cycle_counter + 1) acc.1 acc.2.1 acc.2.2).2 ++
        (run_l1_l2 (l1_l2_cache L1Cache L2Cache (cycle_counter + 1) acc.1 acc.2.1 acc.2.2).1.1
          (l1_l2_cache L1Cache L2Cache (cycle_counter + 1) acc.1 acc.2.1 acc.2.2).1.2
          (cycle_counter + 1) rest).2)

/-- Inclusion of L1 in L2: every address whose block is resident in `L1Cache` has its
block resident in `L2Cache`. -/
def Inclusive (L1Cache L2Cache : Cache) : Prop :=
  ∀ a : Nat, L1Cache.resident (a : Int) = true → L2Cache.resident (a : Int) = true

/-! ## The execution engine

`unsigned mem[MEM_SIZE]`, `uint16_t reg[NUM_REGS]` and `uint16_t pc` are a function
from indices to cells, a function from indices to cells, and a natural number; every
store into a `uint16_t` is taken modulo `2^16`. The source indexes `mem` only through
`& 8191` and `reg` only through 3-bit fields or the constants 0 and 7. -/

def opAdd : Nat := 0

def opSub : Nat := 1

def opOr : Nat := 2

def opAnd : Nat := 3

def opSlt : Nat := 4

def opJr : Nat := 8

def opSlti : Nat := 57344

def opJeq : Nat := 49152

def opAddi : Nat := 8192

def opJ : Nat := 16384

def opJal : Nat := 24576

def opMSB : Nat := 57344

def opLSB : Nat := 15

def REG_SIZE : Nat := 65536

/-- The arguments `mem`, `reg`, `pc` shared by `simulate`, `threeRegInstr` and
`twoRegInstr`. -/
structure Machine where
  mem : Nat → Nat
  reg : Nat → Nat
  pc : Nat

/-- Array assignment `a[k] = v`. -/
def write (a : Nat → Nat) (k v : Nat) : Nat → Nat :=
  fun i => if i = k then v else a i

/-- The fetch `uint16_t instruction = mem[pc & 8191]`. -/
def fetch (m : Machine) : Nat :=
  m.mem (m.pc &&& 8191) % 65536

/-- Field `(instruction & 7168) >> 10`. -/
def regA (instruction : Nat) : Nat :=
  (instruction &&& 7168) >>> 10

/-- Field `(instruction & 896) >> 7`. -/
def regB (instruction : Nat) : Nat :=
  (instruction &&& 896) >>> 7

/-- Field `(instruction & 112) >> 4`. -/
def regDST (instruction : Nat) : Nat :=
  (instruction &&& 112) >>> 4

/-- The `uint16_t immVal` of `twoRegInstr`: `instruction & 127`, then `|= 65408` when
its bit 6 is set. -/
def immVal (instruction : Nat) : Nat :=
  if (instruction &&& 127) &&& 64 ≠ 0 then (instruction &&& 127) ||| 65408
  else instruction &&& 127

/-- Source `threeRegInstr`. An opcode matching no branch falls through to `reg[0] = 0`. -/
def threeRegInstr (m : Machine) : Machine :=
  if fetch m &&& opLSB = opAdd then
    { m with
      reg := write (write m.reg (regDST (fetch m))
        ((m.reg (regA (fetch m)) + m.reg (regB (fetch m))) % 65536)) 0 0
      pc := (m.pc + 1) % 65536 }
  else if fetch m &&& opLSB = opSub then
    { m with
      reg := write (write m.reg (regDST (fetch m))
        ((((m.reg (regA (fetch m)) : Nat) : Int) - ((m.reg (regB (fetch m)) : Nat) : Int))
          % 65536).toNat) 0 0
      pc := (m.pc + 1) % 65536 }
  else if fetch m &&& opLSB = opOr then
    { m with
      reg := write (write m.reg (regDST (fetch m))
        ((m.reg (regA (fetch m)) ||| m.reg (regB (fetch m))) % 65536)) 0 0
      pc := (m.pc + 1) % 65536 }
  else if fetch m &&& opLSB = opAnd then
    { m with
      reg := write (write m.reg (regDST (fetch m))
        ((m.reg (regA (fetch m)) &&& m.reg (regB (fetch m))) % 65536)) 0 0
      pc := (m.pc + 1) % 65536 }
  else if fetch m &&& opLSB = opSlt then
    { m with
      reg := write (write m.reg (regDST (fetch m))
        (if m.reg (regA (fetch m)) < m.reg (regB (fetch m)) then 1 else 0)) 0 0
      pc := (m.pc + 1) % 65536 }
  else if fetch m &&& opLSB = opJr then
    { m with reg := write m.reg 0 0, pc := m.reg (regA (fetch m)) }
  else
    { m with reg := write m.reg 0 0 }

/-- The cache call of `twoRegInstr`: `l1_cache(caches[0], ...)` when `cache_size == 1`,
`l1_l2_cache(caches[0], caches[1], ...)` when `cache_size == 2`, nothing otherwise. A
vector too short for the index is undefined in the source and left alone here. -/
def cache_call (cache_size : Int) (caches : List Cache) (cycle_counter : Int)
    (addr opCode : Nat) (pc : Int) : List Cache × List LogEntry :=
  if cache_size = 1 then
    match caches with
    | L1 :: rest =>
      ((l1_cache L1 cycle_counter addr opCode pc).1 :: rest,
        (l1_cache L1 cycle_counter addr opCode pc).2)
    | [] => (caches, [])
  else if cache_size = 2 then
    match caches with
    | L1 :: L2 :: rest =>
      ((l1_l2_cache L1 L2 cycle_counter addr opCode pc).1.1 ::
          (l1_l2_cache L1 L2 cycle_counter addr opCode pc).1.2 :: rest,
        (l1_l2_cache L1 L2 cycle_counter addr opCode pc).2)
    | _ => (caches, [])
  else (caches, [])

/-- The address `(immVal + reg[regA]) & 8191` of a `lw` or `sw`. -/
def mem_addr (m : Machine) : Nat :=
  (immVal (fetch m) + m.reg (regA (fetch m))) &&& 8191

/-- Source `twoRegInstr`; returns the machine, the caches and the lines printed. -/
def twoRegInstr (m : Machine) (opCode : Nat) (cache_size : Int) (caches : List Cache)
    (cycle_counter : Int) : Machine × List Cache × List LogEntry :=
  if opCode = opSlti then
    ({ m with
        reg := write (write m.reg (regB (fetch m))
          (if m.reg (regA (fetch m)) < immVal (fetch m) then 1 else 0)) 0 0
        pc := (m.pc + 1) % 65536 }, caches, [])
  else if opCode = opJeq then
    if m.reg (regA (fetch m)) = m.reg (regB (fetch m)) then
      ({ m with
          reg := write m.reg 0 0
          pc := if (m.pc + (immVal (fetch m) + 1)) % 65536 ≥ 128 then
              (m.pc + (immVal (fetch m) + 1)) % 65536 % 128
            else (m.pc + (immVal (fetch m) + 1)) % 65536 }, caches, [])
    else
      ({ m with reg := write m.reg 0 0, pc := (m.pc + 1) % 65536 }, caches, [])
  else if opCode = opAddi then
    ({ m with
        reg := write (write m.reg (regB (fetch m))
          ((m.reg (regA (fetch m)) + immVal (fetch m)) % 65536)) 0 0
        pc := (m.pc + 1) % 65536 }, caches, [])
  else
    ({ mem := if opCode = opLw then m.mem
          else if opCode = opSw then write m.mem (mem_addr m &&& 8191) (m.reg (regB (fetch m)))
          else m.mem
       reg := if opCode = opLw then
            write (write (write m.reg (regB (fetch m)) (m.mem (mem_addr m) % 65536)) 0 0) 0 0
          else write (write m.reg 0 0) 0 0
       pc := (m.pc + 1) % 65536 },
      (cache_call cache_size caches cycle_counter (mem_addr m) opCode (m.pc : Int)).1,
      (cache_call cache_size caches cycle_counter (mem_addr m) opCode (m.pc : Int)).2)

/-- Everything `simulate` works on: the machine, the global `cycle_counter`, the cache
arguments and the lines printed so far. -/
structure Sim where
  machine : Machine
  cycle_counter : Int
  cache_size : Int
  caches : List Cache
  out : List LogEntry

/-- The end of the loop body of `simulate`: `if (pc > REG_SIZE-1) pc %= REG_SIZE-1`. -/
def wrap_pc (m : Machine) : Machine :=
  if m.pc > REG_SIZE - 1 then { m with pc := m.pc % (REG_SIZE - 1) } else m

/-- One pass through the loop body of `simulate`. The flag is `true` when the body
executes `return`. -/
def simulate_iter (s : Sim) : Bool × Sim :=
  if fetch s.machine &&& opMSB = 0 then
    (false, { s with
      machine := wrap_pc (threeRegInstr s.machine)
      cycle_counter := s.cycle_counter + 1 })
  else if fetch s.machine &&& opMSB = opJal then
    (false, { s with
      machine := wrap_pc { s.machine with
        reg := write s.machine.reg 7 ((s.machine.pc + 1) % 65536)
        pc := fetch s.machine &&& 8191 }
      cycle_counter := s.cycle_counter + 1 })
  else if fetch s.machine &&& opMSB = opJ ∧ fetch s.machine &&& 8191 = s.machine.pc then
    (true, { s with cycle_counter := s.cycle_counter + 1 })
  else if fetch s.machine &&& opMSB = opJ ∧ fetch s.machine &&& 8191 ≠ s.machine.pc then
    (false, { s with
      machine := wrap_pc { s.machine with pc := fetch s.machine &&& 8191 }
      cycle_counter := s.cycle_counter + 1 })
  else
    (false, { s with
      machine := wrap_pc (twoRegInstr s.machine (fetch s.machine &&& opMSB) s.cache_size
        s.caches (s.cycle_counter + 1)).1
      cycle_counter := s.cycle_counter + 1
      caches := (twoRegInstr s.machine (fetch s.machine &&& opMSB) s.cache_size
        s.caches (s.cycle_counter + 1)).2.1
      out := s.out ++ (twoRegInstr s.machine (fetch s.machine &&& opMSB) s.cache_size
        s.caches (s.cycle_counter + 1)).2.2 })

/-- The loop of `simulate` cut after at most `n` passes: the flag tells whether the
function has returned (by `return`, or by the loop test `pc < REG_SIZE` failing). -/
def run_iters : Nat → Sim → Bool × Sim
  | 0, s => (false, s)
  | n + 1, s =>
    if s.machine.pc < REG_SIZE then
      if (simulate_iter s).1 then (true, (simulate_iter s).2)
      else run_iters n (simulate_iter s).2
    else (true, s)

/-- Source `simulate` with fuel: `some` final state when the function returns within
`fuel` passes of the loop, `none` when the fuel runs out first. -/
def simulate (fuel : Nat) (s : Sim) : Option Sim :=
  if (run_iters fuel s).1 then some (run_iters fuel s).2 else none

/-- The state in which `main` calls `simulate`: registers and pc zero, cycle counter
zero, nothing printed by the cache functions yet. -/
def initial (mem : Nat → Nat) (cache_size : Int) (caches : List Cache) : Sim :=
  { machine := { mem := mem, reg := fun _ => 0, pc := 0 }
    cycle_counter := 0
    cache_size := cache_size
    caches := caches
    out := [] }

/-- The 7-bit immediate read as a signed number. -/
def sext7 (imm : Nat) : Int :=
  if 64 ≤ imm then (imm : Int) - 128 else (imm : Int)

/-- The tags of the occupied ways of a row, in way order. -/
def occupied_tags (r : List (Int × Int)) : List Int :=
  (r.map Prod.snd).filter (fun t => decide (t ≠ -1))

/-- No row holds the same non-empty tag in two ways. -/
def Cache.UniqueTags (c : Cache) : Prop :=
  ∀ r ∈ c.cache, (occupied_tags r).Nodup

/-- The tags, other than the tag of `b`, of the probes of `ps` that map to the row of
`b`, in probe order. -/
def Cache.conflicting_tags (c : Cache) (b : Int) (ps : List (Int × Int)) : List Int :=
  ((ps.filter (fun p => decide (c.get_row p.2 = c.get_row b))).map
    (fun p => c.tag_of p.2)).filter (fun t => decide (t ≠ c.tag_of b))

namespace Cache

theorem way_eq (c : Cache) (index i : Int) :
    c.way index i = (c.row index).getD i.toNat (0, -1) := rfl

theorem setWay_eq (c : Cache) (index i : Int) (w : Int × Int) :
    c.setWay index i w = c.withRow index ((c.row index).set i.toNat w) := rfl

theorem row_withRow (c : Cache) (index : Int) (r : List (Int × Int))
    (h : index.toNat < c.cache.length) : (c.withRow index r).row index = r := by
  simp [row, withRow, List.getD_eq_getElem?_getD, List.getElem?_set, h]

theorem row_withRow_ne (c : Cache) (index j : Int) (r : List (Int × Int))
    (h : index.toNat ≠ j.toNat) : (c.withRow index r).row j = c.row j := by
  simp [row, withRow, List.getD_eq_getElem?_getD, List.getElem?_set, h]

theorem withRow_withRow (c : Cache) (index : Int) (r r' : List (Int × Int)) :
    (c.withRow index r).withRow index r' = c.withRow index r' := by
  simp [withRow, List.set_set]

theorem withRow_row (c : Cache) (index : Int) (h : index.toNat < c.cache.length) :
    c.withRow index (c.row index) = c := by
  cases c with
  | mk s a b n l =>
    simp only [withRow, row, Cache.mk.injEq, true_and]
    apply List.ext_getElem
    · simp
    · intro k h1 h2
      simp only [List.getElem_set]
      split
      · next hk => subst hk; simp [List.getD_eq_getElem?_getD, List.getElem?_eq_getElem h2]
      · rfl

/-! ## `update_lru` refreshes every way holding the tag -/

/-- The loop body of `update_lru`, seen on the row alone. -/
theorem update_lru_step (c : Cache) (cc index tag : Int) (r : List (Int × Int)) (i : Nat)
    (h : index.toNat < c.cache.length) :
    (if tag = ((c.withRow index r).way index i).2 then
        (c.withRow index r).setWay index i (cc, ((c.withRow index r).way index i).2)
      else c.withRow index r)
      = c.withRow index (r.set i (refresh cc tag (r.getD i (0, -1)))) := by
  have hw : (c.withRow index r).way index i = r.getD i (0, -1) := by
    rw [way_eq, row_withRow c index r h]; simp
  rw [hw, setWay_eq, row_withRow c index r h, withRow_withRow]
  simp only [Int.toNat_natCast, refresh]
  split
  · rfl
  · congr 1
    by_cases hi : i < r.length
    · apply List.ext_getElem
      · simp
      · intro k h1 h2
        simp only [List.getElem_set]
        split
        · next hk => subst hk; simp [List.getD_eq_getElem?_getD, List.getElem?_eq_getElem hi]
        · rfl
    · rw [List.set_eq_of_length_le (by omega)]

theorem update_lru_fold (c : Cache) (cc index tag : Int) (h : index.toNat < c.cache.length)
    (l : List Nat) (r : List (Int × Int)) :
    l.foldl
      (fun (st : Cache) (i : Nat) =>
        if tag = (st.way index i).2 then st.setWay index i (cc, (st.way index i).2) else st)
      (c.withRow index r)
      = c.withRow index
          (l.foldl (fun (st : List (Int × Int)) (i : Nat) =>
            st.set i (refresh cc tag (st.getD i (0, -1)))) r) := by
  induction l generalizing r with
  | nil => rfl
  | cons i l ih =>
    simp only [List.foldl_cons]
    rw [update_lru_step c cc index tag r i h, ih]

theorem refresh_fold (cc tag : Int) (r : List (Int × Int)) (k : Nat) :
    ((List.range k).foldl (fun (st : List (Int × Int)) (i : Nat) =>
        st.set i (refresh cc tag (st.getD i (0, -1)))) r).length = r.length ∧
    ∀ j, ((List.range k).foldl (fun (st : List (Int × Int)) (i : Nat) =>
        st.set i (refresh cc tag (st.getD i (0, -1)))) r)[j]?
      = if j < k then (r[j]?).map (refresh cc tag) else r[j]? := by
  induction k with
  | zero => simp
  | succ k ih =>
    obtain ⟨hlen, hget⟩ := ih
    rw [List.range_succ, List.foldl_append]
    simp only [List.foldl_cons, List.foldl_nil, List.length_set, hlen, true_and]
    intro j
    rw [List.getElem?_set, hlen, List.getD_eq_getElem?_getD, hget k, hget j]
    by_cases hjk : k = j
    · subst hjk
      by_cases hk : k < r.length
      · simp [hk, List.getElem?_eq_getElem hk]
      · simp [hk, List.getElem?_eq_none (Nat.le_of_not_lt hk)]
    · by_cases hlt : j < k
      · have : j < k + 1 := by omega
        simp [hjk, hlt, this]
      · have : ¬ j < k + 1 := by omega
        simp [hjk, hlt, this]

/-- On a row of `assoc` ways, `update_lru` maps `refresh` over the row. -/
theorem update_lru_eq (c : Cache) (cc addr index tag : Int)
    (h : index.toNat < c.cache.length) (hlen : (c.row index).length = c.assoc.toNat) :
    c.update_lru cc addr index tag = c.withRow index ((c.row index).map (refresh cc tag)) := by
  have e := update_lru_fold c cc index tag h (List.range c.assoc.toNat) (c.row index)
  rw [withRow_row c index h] at e
  unfold update_lru
  rw [e]
  congr 1
  obtain ⟨h1, h2⟩ := refresh_fold cc tag (c.row index) c.assoc.toNat
  apply List.ext_getElem?
  intro j
  rw [h2 j, List.getElem?_map]
  by_cases hj : j < c.assoc.toNat
  · simp [hj]
  · simp [hj, List.getElem?_eq_none (show (c.row index).length ≤ j by omega)]

/-! ## The two scanning loops -/

/-- The `get_lru` loop over the first `k` ways returns the first way of least value. -/
theorem argmin_scan (f : Nat → Int) (k : Nat) :
    ∃ m : Nat,
      (List.range k).foldl
          (fun (st : Int × Int) (i : Nat) => if f i < st.1 then (f i, (i : Int)) else st)
          (f 0, 0) = (f m, (m : Int)) ∧
        (m < k ∨ m = 0) ∧ (∀ j, j < k → f m ≤ f j) ∧ (∀ j, j < m → f m < f j) := by
  induction k with
  | zero => exact ⟨0, by simp⟩
  | succ k ih =>
    obtain ⟨m, hm, hlt, hmin, hfirst⟩ := ih
    rw [List.range_succ, List.foldl_append, hm]
    simp only [List.foldl_cons, List.foldl_nil]
    by_cases hk : f k < f m
    · refine ⟨k, by simp [hk], Or.inl (Nat.lt_succ_self k), ?_, ?_⟩
      · intro j hj
        rcases Nat.lt_succ_iff_lt_or_eq.mp hj with h | h
        · exact le_of_lt (lt_of_lt_of_le hk (hmin j h))
        · subst h; exact le_refl _
      · intro j hj
        exact lt_of_lt_of_le hk (hmin j hj)
    · refine ⟨m, by simp [hk], ?_, ?_, hfirst⟩
      · rcases hlt with h | h
        · exact Or.inl (Nat.lt_succ_of_lt h)
        · exact Or.inr h
      · intro j hj
        rcases Nat.lt_succ_iff_lt_or_eq.mp hj with h | h
        · exact hmin j h
        · subst h; exact le_of_not_lt hk

/-- The counting loop of `eviction` over the first `k` ways: `capacity` reaches `k`
exactly when no way is empty, and otherwise `empty_index` is the last empty way. -/
theorem count_scan (g : Nat → Int) (k : Nat) :
    ∃ cap e : Int,
      (List.range k).foldl
          (fun (st : Int × Int) (i : Nat) =>
            if g i ≠ -1 then (st.1 + 1, st.2) else (st.1, (i : Int)))
          (0, 0) = (cap, e) ∧
        cap ≤ k ∧ (cap = k ↔ ∀ j, j < k → g j ≠ -1) ∧
        (cap ≠ k → ∃ m : Nat, m < k ∧ e = m ∧ g m = -1 ∧ ∀ j, m < j → j < k → g j ≠ -1) := by
  induction k with
  | zero => exact ⟨0, 0, by simp⟩
  | succ k ih =>
    obtain ⟨cap, e, hfold, hle, hfull, hempty⟩ := ih
    rw [List.range_succ, List.foldl_append, hfold]
    simp only [List.foldl_cons, List.foldl_nil]
    by_cases hk : g k = -1
    · refine ⟨cap, k, by simp [hk], by push_cast; omega, ?_, ?_⟩
      · constructor
        · intro h; push_cast at h; omega
        · intro h; exact absurd hk (h k (Nat.lt_succ_self k))
      · intro _
        exact ⟨k, Nat.lt_succ_self k, rfl, hk, fun j h1 h2 => by omega⟩
    · refine ⟨cap + 1, e, by simp [hk], by push_cast; omega, ?_, ?_⟩
      · constructor
        · intro h j hj
          have hc : cap = k := by push_cast at h; omega
          rcases Nat.lt_succ_iff_lt_or_eq.mp hj with h' | h'
          · exact hfull.mp hc j h'
          · subst h'; exact hk
        · intro h
          have : cap = k := hfull.mpr (fun j hj => h j (Nat.lt_succ_of_lt hj))
          push_cast; omega
      · intro h
        have hc : cap ≠ k := by intro hc; apply h; push_cast; omega
        obtain ⟨m, hm, he, hg, hlast⟩ := hempty hc
        refine ⟨m, Nat.lt_succ_of_lt hm, he, hg, ?_⟩
        intro j h1 h2
        rcases Nat.lt_succ_iff_lt_or_eq.mp h2 with h' | h'
        · exact hlast j h1 h'
        · subst h'; exact hk

/-! ## Addresses, rows and residency -/

theorem get_row_nonneg (c : Cache) (hwf : c.WF) (addr : Int) (ha : 0 ≤ addr) :
    c.get_row addr = (addr / c.blocksize) % c.num_rows ∧
      0 ≤ c.get_row addr ∧ c.get_row addr < c.num_rows := by
  obtain ⟨_, hb, hn, _, _⟩ := hwf
  have hq : 0 ≤ addr / c.blocksize := Int.ediv_nonneg ha (by omega)
  have e : c.get_row addr = (addr / c.blocksize) % c.num_rows := by
    unfold get_row
    rw [Int.tdiv_eq_ediv ha (by omega), Int.tmod_eq_emod hq (by omega)]
  rw [e]
  exact ⟨rfl, Int.emod_nonneg _ (by omega), Int.emod_lt_of_pos _ (by omega)⟩

theorem tag_of_nonneg (c : Cache) (hwf : c.WF) (addr : Int) (ha : 0 ≤ addr) :
    c.tag_of addr = (addr / c.blocksize) / c.num_rows ∧ 0 ≤ c.tag_of addr := by
  obtain ⟨_, hb, hn, _, _⟩ := hwf
  have hq : 0 ≤ addr / c.blocksize := Int.ediv_nonneg ha (by omega)
  have e : c.tag_of addr = (addr / c.blocksize) / c.num_rows := by
    unfold tag_of
    rw [Int.tdiv_eq_ediv ha (by omega), Int.tdiv_eq_ediv hq (by omega)]
  rw [e]
  exact ⟨rfl, Int.ediv_nonneg hq (by omega)⟩

theorem get_row_lt_length (c : Cache) (hwf : c.WF) (addr : Int) (ha : 0 ≤ addr) :
    (c.get_row addr).toNat < c.cache.length := by
  obtain ⟨_, h0, hlt⟩ := get_row_nonneg c hwf addr ha
  obtain ⟨_, _, _, hl, _⟩ := hwf
  omega

theorem row_length (c : Cache) (hwf : c.WF) (index : Int) (h : index.toNat < c.cache.length) :
    (c.row index).length = c.assoc.toNat := by
  obtain ⟨_, _, _, _, hr⟩ := hwf
  apply hr
  unfold row
  rw [List.getD_eq_getElem _ _ h]
  exact List.getElem_mem h

theorem WF_withRow (c : Cache) (hwf : c.WF) (index : Int) (r : List (Int × Int))
    (hr : r.length = c.assoc.toNat) : (c.withRow index r).WF := by
  obtain ⟨h1, h2, h3, h4, h5⟩ := hwf
  refine ⟨h1, h2, h3, ?_, ?_⟩
  · simpa [withRow] using h4
  · intro r' hr'
    rcases List.mem_or_eq_of_mem_set hr' with h | h
    · exact h5 r' h
    · subst h; exact hr

theorem holds_iff (c : Cache) (index tag : Int) (hlen : (c.row index).length = c.assoc.toNat) :
    c.holds index tag = true ↔ ∃ w ∈ c.row index, w.2 = tag := by
  unfold holds
  rw [List.any_eq_true]
  constructor
  · rintro ⟨i, hi, hw⟩
    rw [List.mem_range] at hi
    have hi' : i < (c.row index).length := by omega
    rw [way_eq, Int.toNat_natCast, List.getD_eq_getElem _ _ hi'] at hw
    exact ⟨_, List.getElem_mem hi', by simpa using hw⟩
  · rintro ⟨w, hw, ht⟩
    obtain ⟨i, hi, rfl⟩ := List.getElem_of_mem hw
    have hi' : i < c.assoc.toNat := by omega
    refine ⟨i, List.mem_range.mpr hi', ?_⟩
    rw [way_eq, Int.toNat_natCast, List.getD_eq_getElem _ _ hi]
    simpa using ht

theorem holds_false_iff (c : Cache) (index tag : Int)
    (hlen : (c.row index).length = c.assoc.toNat) :
    c.holds index tag = false ↔ ∀ w ∈ c.row index, w.2 ≠ tag := by
  rw [← Bool.not_eq_true, holds_iff c index tag hlen]
  push_neg
  rfl

/-- The flag returned by `cache_lookup` is residency before the call. -/
theorem cache_lookup_fst (c : Cache) (cc addr : Int) :
    (c.cache_lookup cc addr).1 = c.resident addr := by
  unfold cache_lookup resident holds get_row tag_of
  by_cases h1 : c.assoc = 1
  · simp only [h1, if_true]
    split <;> simp_all
  · simp only [h1, if_false]
    split <;> simp_all

theorem cache_lookup_snd_hit (c : Cache) (cc addr : Int) (h : c.resident addr = true) :
    (c.cache_lookup cc addr).2 =
      if c.assoc = 1 then c else c.update_lru cc addr (c.get_row addr) (c.tag_of addr) := by
  have hf := cache_lookup_fst c cc addr
  rw [h] at hf
  unfold cache_lookup at hf ⊢
  unfold get_row tag_of
  by_cases h1 : c.assoc = 1
  · simp only [h1, if_true] at hf ⊢
    split
    · rfl
    · next hn => simp [hn] at hf
  · simp only [h1, if_false] at hf ⊢
    split
    · rfl
    · next hn => simp [hn] at hf

theorem cache_lookup_snd_miss (c : Cache) (cc addr : Int) (h : c.resident addr = false) :
    (c.cache_lookup cc addr).2 = c.eviction cc addr (c.get_row addr) (c.tag_of addr) := by
  have hf := cache_lookup_fst c cc addr
  rw [h] at hf
  unfold cache_lookup at hf ⊢
  unfold get_row tag_of
  by_cases h1 : c.assoc = 1
  · simp only [h1, if_true] at hf ⊢
    split
    · next hn => simp [hn] at hf
    · rfl
  · simp only [h1, if_false] at hf ⊢
    split
    · next hn => simp [hn] at hf
    · rfl

/-! ## `eviction` -/

theorem eviction_direct (c : Cache) (cc addr index tag : Int) (h1 : c.assoc = 1) :
    c.eviction cc addr index tag = c.withRow index ((c.row index).set 0 (0, tag)) := by
  unfold eviction
  simp [h1, setWay_eq]

theorem map_refresh_set (cc tag : Int) (r : List (Int × Int)) (k : Nat)
    (hmiss : ∀ w ∈ r, w.2 ≠ tag) :
    (r.set k (cc, tag)).map (refresh cc tag) = r.set k (cc, tag) := by
  have hid : r.map (refresh cc tag) = r := by
    conv_rhs => rw [← List.map_id r]
    apply List.map_congr_left
    intro w hw
    have := hmiss w hw
    simp only [refresh, id]
    rw [if_neg (fun h => this h.symm)]
  rw [List.map_set, hid]
  simp [refresh]

/-- Writing `(cycle_counter, tag)` into way `k` and then running `update_lru`, when no
way held `tag` before, changes way `k` only. -/
theorem install_then_refresh (c : Cache) (cc addr index tag : Int) (k : Nat)
    (hi : index.toNat < c.cache.length) (hlen : (c.row index).length = c.assoc.toNat)
    (hmiss : ∀ w ∈ c.row index, w.2 ≠ tag) :
    (c.setWay index (k : Int) (cc, tag)).update_lru cc addr index tag
      = c.withRow index ((c.row index).set k (cc, tag)) := by
  rw [setWay_eq, Int.toNat_natCast]
  have hi' : index.toNat < (c.withRow index ((c.row index).set k (cc, tag))).cache.length := by
    simpa [withRow] using hi
  rw [update_lru_eq _ cc addr index tag hi'
    (by rw [row_withRow c index _ hi, List.length_set]; exact hlen)]
  rw [row_withRow c index _ hi, withRow_withRow, map_refresh_set cc tag _ k hmiss]

/-- On an associative cache, `eviction` after a miss overwrites exactly one way `k` with
`(cycle_counter, tag)`: the last empty way if the row has one, otherwise the first
way of least lru value. -/
theorem eviction_assoc (c : Cache) (cc addr index tag : Int) (h1 : c.assoc ≠ 1)
    (hpos : 1 ≤ c.assoc) (hi : index.toNat < c.cache.length)
    (hlen : (c.row index).length = c.assoc.toNat)
    (hmiss : ∀ w ∈ c.row index, w.2 ≠ tag) :
    ∃ k : Nat, k < c.assoc.toNat ∧
      c.eviction cc addr index tag = c.withRow index ((c.row index).set k (cc, tag)) ∧
      ((∃ j : Nat, j < c.assoc.toNat ∧ (c.way index j).2 = -1) →
        (c.way index k).2 = -1 ∧
          ∀ j : Nat, k < j → j < c.assoc.toNat → (c.way index j).2 ≠ -1) ∧
      ((∀ j : Nat, j < c.assoc.toNat → (c.way index j).2 ≠ -1) →
        (∀ j : Nat, j < c.assoc.toNat → (c.way index k).1 ≤ (c.way index j).1) ∧
          ∀ j : Nat, j < k → (c.way index k).1 < (c.way index j).1) := by
  have hn : ((c.assoc.toNat : Nat) : Int) = c.assoc := by omega
  obtain ⟨cap, e, hfold, hle, hfull, hempty⟩ :=
    count_scan (fun j => (c.way index (j : Int)).2) c.assoc.toNat
  have hcs : c.capacity_scan index = (cap, e) := hfold
  unfold eviction
  rw [if_neg h1, hcs]
  by_cases hc : cap = c.assoc
  · have hall := hfull.mp (by rw [hn]; exact hc)
    obtain ⟨m, hm, hlt, hmin, hfirst⟩ :=
      argmin_scan (fun j => (c.way index (j : Int)).1) c.assoc.toNat
    have hg : c.get_lru addr index = (m : Int) := by
      unfold get_lru
      exact congrArg Prod.snd hm
    have hmn : m < c.assoc.toNat := by
      rcases hlt with h | h
      · exact h
      · omega
    refine ⟨m, hmn, ?_, ?_, ?_⟩
    · simp only [hc, ne_eq, not_true_eq_false, if_false, hg]
      exact install_then_refresh c cc addr index tag m hi hlen hmiss
    · rintro ⟨j, hj, hj'⟩
      exact absurd hj' (hall j hj)
    · intro _
      exact ⟨hmin, hfirst⟩
  · obtain ⟨m, hm, he, hg, hlast⟩ := hempty (by rw [hn]; exact hc)
    refine ⟨m, hm, ?_, ?_, ?_⟩
    · simp only [ne_eq, hc, not_false_eq_true, if_true, he]
      exact install_then_refresh c cc addr index tag m hi hlen hmiss
    · intro _
      exact ⟨hg, hlast⟩
    · intro hall
      exact absurd hg (hall m hm)

/-! ## `cache_lookup` -/

theorem lookup_hit (c : Cache) (hwf : c.WF) (cc addr : Int) (ha : 0 ≤ addr)
    (h : c.resident addr = true) :
    (c.cache_lookup cc addr).2 =
      if c.assoc = 1 then c
      else c.withRow (c.get_row addr)
        ((c.row (c.get_row addr)).map (refresh cc (c.tag_of addr))) := by
  rw [cache_lookup_snd_hit c cc addr h]
  split
  · rfl
  · exact update_lru_eq c cc addr _ _ (get_row_lt_length c hwf addr ha)
      (row_length c hwf _ (get_row_lt_length c hwf addr ha))

theorem lookup_miss_direct (c : Cache) (hwf : c.WF) (cc addr : Int) (ha : 0 ≤ addr)
    (h1 : c.assoc = 1) (h : c.resident addr = false) :
    (c.cache_lookup cc addr).2 = c.withRow (c.get_row addr) [(0, c.tag_of addr)] := by
  rw [cache_lookup_snd_miss c cc addr h, eviction_direct c cc addr _ _ h1]
  have hl := row_length c hwf _ (get_row_lt_length c hwf addr ha)
  rw [h1] at hl
  congr 1
  match hr : c.row (c.get_row addr), hl with
  | [w], _ => rfl

theorem lookup_miss_assoc (c : Cache) (hwf : c.WF) (cc addr : Int) (ha : 0 ≤ addr)
    (h1 : c.assoc ≠ 1) (h : c.resident addr = false) :
    ∃ k : Nat, k < c.assoc.toNat ∧
      (c.cache_lookup cc addr).2 =
        c.withRow (c.get_row addr) ((c.row (c.get_row addr)).set k (cc, c.tag_of addr)) ∧
      ((∃ j : Nat, j < c.assoc.toNat ∧ (c.way (c.get_row addr) j).2 = -1) →
        (c.way (c.get_row addr) k).2 = -1 ∧
          ∀ j : Nat, k < j → j < c.assoc.toNat → (c.way (c.get_row addr) j).2 ≠ -1) ∧
      ((∀ j : Nat, j < c.assoc.toNat → (c.way (c.get_row addr) j).2 ≠ -1) →
        (∀ j : Nat, j < c.assoc.toNat →
            (c.way (c.get_row addr) k).1 ≤ (c.way (c.get_row addr) j).1) ∧
          ∀ j : Nat, j < k → (c.way (c.get_row addr) k).1 < (c.way (c.get_row addr) j).1) := by
  rw [cache_lookup_snd_miss c cc addr h]
  have hi := get_row_lt_length c hwf addr ha
  have hl := row_length c hwf _ hi
  exact eviction_assoc c cc addr _ _ h1 hwf.1 hi hl
    ((holds_false_iff c _ _ hl).mp h)

/-- Shape of the cache after any `cache_lookup`: only the row of the address is
rewritten, it keeps its `assoc` ways, one of them holds the tag of the address; a
direct-mapped row holds nothing else; a hit leaves every tag where it was. -/
theorem lookup_shape (c : Cache) (hwf : c.WF) (cc addr : Int) (ha : 0 ≤ addr) :
    ∃ r : List (Int × Int), r.length = c.assoc.toNat ∧
      (c.cache_lookup cc addr).2 = c.withRow (c.get_row addr) r ∧
      (∃ w ∈ r, w.2 = c.tag_of addr) ∧
      (c.assoc = 1 → ∀ w ∈ r, w.2 = c.tag_of addr) ∧
      (c.resident addr = true →
        r.map Prod.snd = (c.row (c.get_row addr)).map Prod.snd) := by
  have hi := get_row_lt_length c hwf addr ha
  have hl := row_length c hwf _ hi
  by_cases hres : c.resident addr = true
  · have hmem := (holds_iff c _ _ hl).mp hres
    by_cases h1 : c.assoc = 1
    · refine ⟨c.row (c.get_row addr), hl, ?_, hmem, ?_, fun _ => rfl⟩
      · rw [lookup_hit c hwf cc addr ha hres, if_pos h1, withRow_row c _ hi]
      · intro _ w hw
        obtain ⟨w', hw', ht⟩ := hmem
        rw [h1] at hl
        match hr : c.row (c.get_row addr), hl with
        | [v], _ =>
          rw [hr] at hw hw'
          simp only [List.mem_singleton] at hw hw'
          rw [hw, ← hw']; exact ht
    · refine ⟨(c.row (c.get_row addr)).map (refresh cc (c.tag_of addr)), by simpa using hl,
        ?_, ?_, fun h => absurd h h1, fun _ => ?_⟩
      · rw [lookup_hit c hwf cc addr ha hres, if_neg h1]
      · obtain ⟨w, hw, ht⟩ := hmem
        refine ⟨refresh cc (c.tag_of addr) w, List.mem_map_of_mem _ hw, ?_⟩
        unfold refresh; split <;> exact ht
      · rw [List.map_map]
        apply List.map_congr_left
        intro w _
        simp only [Function.comp, refresh]
        split <;> rfl
  · have hres' : c.resident addr = false := by simpa using hres
    by_cases h1 : c.assoc = 1
    · refine ⟨[(0, c.tag_of addr)], by simp [h1],
        lookup_miss_direct c hwf cc addr ha h1 hres', ⟨_, List.mem_singleton_self _, rfl⟩,
        ?_, fun h => absurd h hres⟩
      intro _ w hw
      simp only [List.mem_singleton] at hw
      rw [hw]
    · obtain ⟨k, hk, he, _, _⟩ := lookup_miss_assoc c hwf cc addr ha h1 hres'
      refine ⟨_, by simpa using hl, he, ⟨(cc, c.tag_of addr), ?_, rfl⟩,
        fun h => absurd h h1, fun h => absurd h hres⟩
      exact List.mem_iff_getElem.mpr ⟨k, by simp; omega, by simp⟩

theorem lookup_WF (c : Cache) (hwf : c.WF) (cc addr : Int) (ha : 0 ≤ addr) :
    (c.cache_lookup cc addr).2.WF := by
  obtain ⟨r, hr, he, _⟩ := lookup_shape c hwf cc addr ha
  rw [he]
  exact WF_withRow c hwf _ r hr

theorem lookup_params (c : Cache) (hwf : c.WF) (cc addr : Int) (ha : 0 ≤ addr) :
    (c.cache_lookup cc addr).2.size = c.size ∧ (c.cache_lookup cc addr).2.assoc = c.assoc ∧
      (c.cache_lookup cc addr).2.blocksize = c.blocksize ∧
      (c.cache_lookup cc addr).2.num_rows = c.num_rows := by
  obtain ⟨r, _, he, _⟩ := lookup_shape c hwf cc addr ha
  rw [he]
  exact ⟨rfl, rfl, rfl, rfl⟩

/-- After a `cache_lookup` the block of the address is resident. -/
theorem lookup_resident (c : Cache) (hwf : c.WF) (cc addr : Int) (ha : 0 ≤ addr) :
    (c.cache_lookup cc addr).2.resident addr = true := by
  obtain ⟨r, hr, he, hmem, _⟩ := lookup_shape c hwf cc addr ha
  have hi := get_row_lt_length c hwf addr ha
  rw [he]
  unfold resident
  have hrow : (c.withRow (c.get_row addr) r).row (c.get_row addr) = r :=
    row_withRow c _ r hi
  exact (holds_iff (c.withRow (c.get_row addr) r) (c.get_row addr) (c.tag_of addr)
    (by rw [hrow]; exact hr)).mpr (by rw [hrow]; exact hmem)

/-- The rows other than the row of the address are not touched by `cache_lookup`. -/
theorem lookup_row_other (c : Cache) (hwf : c.WF) (cc addr : Int) (ha : 0 ≤ addr) (j : Int)
    (hj : (c.get_row addr).toNat ≠ j.toNat) :
    (c.cache_lookup cc addr).2.row j = c.row j := by
  obtain ⟨r, _, he, _⟩ := lookup_shape c hwf cc addr ha
  rw [he]
  exact row_withRow_ne c _ j r hj

theorem new_WF (size assoc blocksize : Int) (ha : 1 ≤ assoc) (hb : 1 ≤ blocksize)
    (hn : 1 ≤ Int.tdiv size (assoc * blocksize)) : (new size assoc blocksize).WF := by
  refine ⟨ha, hb, hn, by simp [new], ?_⟩
  intro r hr
  simp only [new] at hr
  rw [List.eq_of_mem_replicate hr]
  simp [new]

/-- Nothing is resident in a freshly constructed cache. -/
theorem new_not_resident (size assoc blocksize : Int) (hwf : (new size assoc blocksize).WF)
    (addr : Int) (ha : 0 ≤ addr) : (new size assoc blocksize).resident addr = false := by
  have hi := get_row_lt_length _ hwf addr ha
  have hl := row_length _ hwf _ hi
  have ht := (tag_of_nonneg _ hwf addr ha).2
  unfold resident
  rw [holds_false_iff _ _ _ hl]
  intro w hw
  unfold row at hw
  rw [List.getD_eq_getElem _ _ hi] at hw
  simp only [new, List.getElem_replicate] at hw
  rw [List.eq_of_mem_replicate hw]
  simp only
  omega

end Cache

/-! ## The routing functions, branch by branch -/

theorem l1_l2_cache_store (L1 L2 : Cache) (cc : Int) (a : Nat) (pc : Int) :
    l1_l2_cache L1 L2 cc a opSw pc =
      (((L1.cache_lookup cc a).2, (L2.cache_lookup cc a).2),
        [print_log_entry "L1" "SW" pc a (L1.get_row a),
         print_log_entry "L2" "SW" pc a (L2.get_row a)]) := by
  simp [l1_l2_cache]

theorem l1_l2_cache_load_hit (L1 L2 : Cache) (cc : Int) (a op : Nat) (pc : Int)
    (hop : op ≠ opSw) (h : L1.resident a = true) :
    l1_l2_cache L1 L2 cc a op pc =
      (((L1.cache_lookup cc a).2, L2),
        [print_log_entry "L1" "HIT" pc a (L1.get_row a)]) := by
  simp [l1_l2_cache, hop, Cache.cache_lookup_fst, h]

theorem l1_l2_cache_load_l2_hit (L1 L2 : Cache) (cc : Int) (a op : Nat) (pc : Int)
    (hop : op ≠ opSw) (h1 : L1.resident a = false) (h2 : L2.resident a = true) :
    l1_l2_cache L1 L2 cc a op pc =
      (((L1.cache_lookup cc a).2, (L2.cache_lookup cc a).2),
        [print_log_entry "L1" "MISS" pc a (L1.get_row a),
         print_log_entry "L2" "HIT" pc a (L2.get_row a)]) := by
  simp [l1_l2_cache, hop, Cache.cache_lookup_fst, h1, h2]

theorem l1_l2_cache_load_miss (L1 L2 : Cache) (cc : Int) (a op : Nat) (pc : Int)
    (hop : op ≠ opSw) (h1 : L1.resident a = false) (h2 : L2.resident a = false) :
    l1_l2_cache L1 L2 cc a op pc =
      ((((L1.cache_lookup cc a).2.cache_lookup cc a).2, (L2.cache_lookup cc a).2),
        [print_log_entry "L1" "MISS" pc a (L1.get_row a),
         print_log_entry "L2" "MISS" pc a (L2.get_row a)]) := by
  simp [l1_l2_cache, hop, Cache.cache_lookup_fst, h1, h2]

theorem opLw_ne_opSw : opLw ≠ opSw := by decide

/-! ## Two-level mode: loads and stores -/

/-- C1, as the code has it: with `L1`, `L2` well formed, the block of `a` not resident
in L1 and resident in L2, a load of `a` prints `L1 MISS` then `L2 HIT`, both caches are
probed exactly once, and after the access the block of `a` IS resident in L1: the L1
probe installs it on its own miss. -/
theorem load_l2_only_hit (L1 L2 : Cache) (hwf1 : L1.WF) (cc : Int) (a : Nat) (pc : Int)
    (h1 : L1.resident a = false) (h2 : L2.resident a = true) :
    (l1_l2_cache L1 L2 cc a opLw pc).2 =
        [print_log_entry "L1" "MISS" pc a (L1.get_row a),
         print_log_entry "L2" "HIT" pc a (L2.get_row a)] ∧
      (l1_l2_cache L1 L2 cc a opLw pc).1.1 = (L1.cache_lookup cc a).2 ∧
      (l1_l2_cache L1 L2 cc a opLw pc).1.2 = (L2.cache_lookup cc a).2 ∧
      (l1_l2_cache L1 L2 cc a opLw pc).1.1.resident a = true := by
  rw [l1_l2_cache_load_l2_hit L1 L2 cc a opLw pc opLw_ne_opSw h1 h2]
  exact ⟨rfl, rfl, rfl, Cache.lookup_resident L1 hwf1 cc a (Int.natCast_nonneg a)⟩

/-- C1 witness: the amended statement at L1 = 1 row direct-mapped holding block 1,
L2 = 2 rows holding blocks 0 and 1, load of address 0. -/
theorem load_l2_only_hit_witness :
    (run_l1_l2 (Cache.new 1 1 1) (Cache.new 2 1 1) 0
        [(0, opLw, 0), (1, opLw, 1)]).1.1.resident ((0 : Nat) : Int) = false ∧
      (l1_l2_cache
        (run_l1_l2 (Cache.new 1 1 1) (Cache.new 2 1 1) 0 [(0, opLw, 0), (1, opLw, 1)]).1.1
        (run_l1_l2 (Cache.new 1 1 1) (Cache.new 2 1 1) 0 [(0, opLw, 0), (1, opLw, 1)]).1.2
        3 0 opLw 2).1.1.resident ((0 : Nat) : Int) = true :=
  ⟨by decide,
    (load_l2_only_hit
      (run_l1_l2 (Cache.new 1 1 1) (Cache.new 2 1 1) 0 [(0, opLw, 0), (1, opLw, 1)]).1.1
      (run_l1_l2 (Cache.new 1 1 1) (Cache.new 2 1 1) 0 [(0, opLw, 0), (1, opLw, 1)]).1.2
      (by decide) 3 0 2 (by decide) (by decide)).2.2.2⟩

/-- C1 refuted as stated: from two fresh caches (L1: size 1, assoc 1, blocksize 1; L2:
size 2, assoc 1, blocksize 1) the loads 0, 1 reach a state where block 0 is not
resident in L1 and is resident in L2; the next load of 0 prints `L1 MISS`, `L2 HIT`,
and afterwards the way of row 0 of L1 holds tag 0, so the address is in L1. -/
theorem l2_hit_load_installs_in_l1 :
    (run_l1_l2 (Cache.new 1 1 1) (Cache.new 2 1 1) 0
        [(0, opLw, 0), (1, opLw, 1)]).1.1.resident 0 = false ∧
      (run_l1_l2 (Cache.new 1 1 1) (Cache.new 2 1 1) 0
        [(0, opLw, 0), (1, opLw, 1)]).1.2.resident 0 = true ∧
      (l1_l2_cache
        (run_l1_l2 (Cache.new 1 1 1) (Cache.new 2 1 1) 0 [(0, opLw, 0), (1, opLw, 1)]).1.1
        (run_l1_l2 (Cache.new 1 1 1) (Cache.new 2 1 1) 0 [(0, opLw, 0), (1, opLw, 1)]).1.2
        3 0 opLw 2).2 =
          [print_log_entry "L1" "MISS" 2 0 0, print_log_entry "L2" "HIT" 2 0 0] ∧
      (l1_l2_cache
        (run_l1_l2 (Cache.new 1 1 1) (Cache.new 2 1 1) 0 [(0, opLw, 0), (1, opLw, 1)]).1.1
        (run_l1_l2 (Cache.new 1 1 1) (Cache.new 2 1 1) 0 [(0, opLw, 0), (1, opLw, 1)]).1.2
        3 0 opLw 2).1.1.way 0 0 = (0, 0) ∧
      ¬ ((l1_l2_cache
        (run_l1_l2 (Cache.new 1 1 1) (Cache.new 2 1 1) 0 [(0, opLw, 0), (1, opLw, 1)]).1.1
        (run_l1_l2 (Cache.new 1 1 1) (Cache.new 2 1 1) 0 [(0, opLw, 0), (1, opLw, 1)]).1.2
        3 0 opLw 2).1.1.resident 0 = false) := by
  decide

/-- C2: with `L1`, `L2` well formed and the block of `a` resident in neither, a load
of `a` prints exactly `L1 MISS` then `L2 MISS` (the second probe of L1 prints nothing),
and afterwards the block of `a` is resident in L1 and in L2. -/
theorem load_miss_both (L1 L2 : Cache) (hwf1 : L1.WF) (hwf2 : L2.WF) (cc : Int) (a : Nat)
    (pc : Int) (h1 : L1.resident a = false) (h2 : L2.resident a = false) :
    (l1_l2_cache L1 L2 cc a opLw pc).2 =
        [print_log_entry "L1" "MISS" pc a (L1.get_row a),
         print_log_entry "L2" "MISS" pc a (L2.get_row a)] ∧
      (l1_l2_cache L1 L2 cc a opLw pc).1.1.resident a = true ∧
      (l1_l2_cache L1 L2 cc a opLw pc).1.2.resident a = true := by
  rw [l1_l2_cache_load_miss L1 L2 cc a opLw pc opLw_ne_opSw h1 h2]
  have ha : (0 : Int) ≤ (a : Int) := Int.natCast_nonneg a
  exact ⟨rfl,
    Cache.lookup_resident _ (Cache.lookup_WF L1 hwf1 cc a ha) cc a ha,
    Cache.lookup_resident L2 hwf2 cc a ha⟩

/-- C2 witness: two fresh caches (L1 2 rows direct-mapped, L2 2 rows of 2 ways), load
of address 5. -/
theorem load_miss_both_witness :
    (Cache.new 2 1 1).resident ((5 : Nat) : Int) = false ∧
      (Cache.new 4 2 1).resident ((5 : Nat) : Int) = false ∧
      (l1_l2_cache (Cache.new 2 1 1) (Cache.new 4 2 1) 1 5 opLw 0).2 =
        [print_log_entry "L1" "MISS" 0 ((5 : Nat) : Int) ((Cache.new 2 1 1).get_row (5 : Nat)),
         print_log_entry "L2" "MISS" 0 ((5 : Nat) : Int)
           ((Cache.new 4 2 1).get_row (5 : Nat))] ∧
      (l1_l2_cache (Cache.new 2 1 1) (Cache.new 4 2 1) 1 5 opLw 0).1.1.resident
        ((5 : Nat) : Int) = true ∧
      (l1_l2_cache (Cache.new 2 1 1) (Cache.new 4 2 1) 1 5 opLw 0).1.2.resident
        ((5 : Nat) : Int) = true :=
  ⟨by decide, by decide,
    load_miss_both (Cache.new 2 1 1) (Cache.new 4 2 1) (by decide) (by decide) 1 5 0
      (by decide) (by decide)⟩

/-- C3: with `L1`, `L2` well formed, a store to `a` probes L1 and L2 whatever the
residency, prints exactly `L1 SW` then `L2 SW`, each with the pc, the address and the
row `(a / blocksize) mod num_rows` of that level, and afterwards the block of `a` is
resident in both. -/
theorem store_probes_both (L1 L2 : Cache) (hwf1 : L1.WF) (hwf2 : L2.WF) (cc : Int) (a : Nat)
    (pc : Int) :
    (l1_l2_cache L1 L2 cc a opSw pc).2 =
        [print_log_entry "L1" "SW" pc a (((a : Int) / L1.blocksize) % L1.num_rows),
         print_log_entry "L2" "SW" pc a (((a : Int) / L2.blocksize) % L2.num_rows)] ∧
      (l1_l2_cache L1 L2 cc a opSw pc).1.1 = (L1.cache_lookup cc a).2 ∧
      (l1_l2_cache L1 L2 cc a opSw pc).1.2 = (L2.cache_lookup cc a).2 ∧
      (l1_l2_cache L1 L2 cc a opSw pc).1.1.resident a = true ∧
      (l1_l2_cache L1 L2 cc a opSw pc).1.2.resident a = true := by
  rw [l1_l2_cache_store L1 L2 cc a pc]
  have ha : (0 : Int) ≤ (a : Int) := Int.natCast_nonneg a
  rw [(Cache.get_row_nonneg L1 hwf1 a ha).1, (Cache.get_row_nonneg L2 hwf2 a ha).1]
  exact ⟨rfl, rfl, rfl, Cache.lookup_resident L1 hwf1 cc a ha,
    Cache.lookup_resident L2 hwf2 cc a ha⟩

/-- C3 witness: a store to address 6 on two fresh caches. -/
theorem store_probes_both_witness :
    (l1_l2_cache (Cache.new 2 1 1) (Cache.new 8 2 2) 1 6 opSw 3).2 =
        [print_log_entry "L1" "SW" 3 6 0, print_log_entry "L2" "SW" 3 6 1] ∧
      (l1_l2_cache (Cache.new 2 1 1) (Cache.new 8 2 2) 1 6 opSw 3).1.1.resident 6 = true ∧
      (l1_l2_cache (Cache.new 2 1 1) (Cache.new 8 2 2) 1 6 opSw 3).1.2.resident 6 = true :=
  ⟨(store_probes_both (Cache.new 2 1 1) (Cache.new 8 2 2) (by decide) (by decide) 1 6 3).1,
    (store_probes_both (Cache.new 2 1 1) (Cache.new 8 2 2) (by decide) (by decide)
      1 6 3).2.2.2.1,
    (store_probes_both (Cache.new 2 1 1) (Cache.new 8 2 2) (by decide) (by decide)
      1 6 3).2.2.2.2⟩

/-- C4: when the block of `a` is resident in L1, a load of `a` prints exactly one line,
`L1 HIT`, and the L2 cache object after the access is the one before it (every tag
and every lru value of every row). -/
theorem load_l1_hit_frames_l2 (L1 L2 : Cache) (cc : Int) (a : Nat) (pc : Int)
    (h1 : L1.resident a = true) :
    (l1_l2_cache L1 L2 cc a opLw pc).2 =
        [print_log_entry "L1" "HIT" pc a (L1.get_row a)] ∧
      (l1_l2_cache L1 L2 cc a opLw pc).1.2 = L2 := by
  rw [l1_l2_cache_load_hit L1 L2 cc a opLw pc opLw_ne_opSw h1]
  exact ⟨rfl, rfl⟩

/-- C4 witness: after a store to 3 on two fresh caches, a load of 3. -/
theorem load_l1_hit_frames_l2_witness :
    (l1_l2_cache (Cache.new 2 2 1) (Cache.new 4 2 1) 1 3 opSw 0).1.1.resident
        ((3 : Nat) : Int) = true ∧
      (l1_l2_cache (l1_l2_cache (Cache.new 2 2 1) (Cache.new 4 2 1) 1 3 opSw 0).1.1
        (l1_l2_cache (Cache.new 2 2 1) (Cache.new 4 2 1) 1 3 opSw 0).1.2 2 3 opLw 1).1.2 =
        (l1_l2_cache (Cache.new 2 2 1) (Cache.new 4 2 1) 1 3 opSw 0).1.2 :=
  ⟨by decide,
    (load_l1_hit_frames_l2 (l1_l2_cache (Cache.new 2 2 1) (Cache.new 4 2 1) 1 3 opSw 0).1.1
      (l1_l2_cache (Cache.new 2 2 1) (Cache.new 4 2 1) 1 3 opSw 0).1.2 2 3 1 (by decide)).2⟩

/-! ## Single-cache mode -/

theorem opSw_ne_opLw : opSw ≠ opLw := by decide

/-- C6: in single-cache mode on a well-formed cache, a load prints exactly one `L1` line
whose status is `HIT` when the block was resident before the access and `MISS`
otherwise; a store prints exactly one `L1 SW` line whatever the residency; the cache
after a store equals the cache after a load from the same state, namely the cache
after one `cache_lookup`; the printed row is `(a / blocksize) mod num_rows`. -/
theorem l1_cache_events (L1 : Cache) (hwf : L1.WF) (cc : Int) (a : Nat) (pc : Int) :
    (l1_cache L1 cc a opLw pc).2 =
        [print_log_entry "L1" (if L1.resident a = true then "HIT" else "MISS") pc a
          (((a : Int) / L1.blocksize) % L1.num_rows)] ∧
      (l1_cache L1 cc a opSw pc).2 =
        [print_log_entry "L1" "SW" pc a (((a : Int) / L1.blocksize) % L1.num_rows)] ∧
      (l1_cache L1 cc a opSw pc).1 = (l1_cache L1 cc a opLw pc).1 ∧
      (l1_cache L1 cc a opSw pc).1 = (L1.cache_lookup cc a).2 := by
  have ha : (0 : Int) ≤ (a : Int) := Int.natCast_nonneg a
  have hrow := (Cache.get_row_nonneg L1 hwf a ha).1
  unfold l1_cache
  simp only [if_true, if_neg opSw_ne_opLw, Cache.cache_lookup_fst, hrow]
  by_cases h : L1.resident a = true
  · simp [h]
  · simp [h]

/-- C6 witness: a fresh cache of 4 rows, blocksize 2, address 10. -/
theorem l1_cache_events_witness :
    (l1_cache (Cache.new 8 1 2) 1 10 opLw 7).2 = [print_log_entry "L1" "MISS" 7 10 1] ∧
      (l1_cache (Cache.new 8 1 2) 1 10 opSw 7).2 = [print_log_entry "L1" "SW" 7 10 1] ∧
      (l1_cache (Cache.new 8 1 2) 1 10 opSw 7).1 = (l1_cache (Cache.new 8 1 2) 1 10 opLw 7).1 :=
  ⟨(l1_cache_events (Cache.new 8 1 2) (by decide) 1 10 7).1,
    (l1_cache_events (Cache.new 8 1 2) (by decide) 1 10 7).2.1,
    (l1_cache_events (Cache.new 8 1 2) (by decide) 1 10 7).2.2.1⟩

/-! ## Sequences of probes on one cache -/

namespace Cache

theorem resident_congr (c1 c2 : Cache) (a : Int) (h1 : c1.assoc = c2.assoc)
    (h2 : c1.blocksize = c2.blocksize) (h3 : c1.num_rows = c2.num_rows)
    (hrow : c1.row (c2.get_row a) = c2.row (c2.get_row a)) :
    c1.resident a = c2.resident a := by
  unfold resident holds
  have hg : c1.get_row a = c2.get_row a := by unfold get_row; rw [h2, h3]
  have ht : c1.tag_of a = c2.tag_of a := by unfold tag_of; rw [h2, h3]
  simp only [way_eq, hg, ht, h1, hrow]

/-- Two addresses with the same row and the same tag are resident together. -/
theorem resident_same_block (c : Cache) (a b : Int) (hr : c.get_row b = c.get_row a)
    (ht : c.tag_of b = c.tag_of a) : c.resident a = c.resident b := by
  unfold resident
  rw [hr, ht]

theorem toNat_ne_of_ne (i j : Int) (hi : 0 ≤ i) (hj : 0 ≤ j) (h : i ≠ j) :
    i.toNat ≠ j.toNat := by
  omega

/-- A probe of `b` keeps the block of `a` resident unless `b` maps to the row of `a`
with another tag. -/
theorem lookup_keeps_resident (c : Cache) (hwf : c.WF) (cc a b : Int) (ha : 0 ≤ a)
    (hb : 0 ≤ b) (hres : c.resident a = true)
    (hcompat : c.get_row b = c.get_row a → c.tag_of b = c.tag_of a) :
    (c.cache_lookup cc b).2.resident a = true := by
  obtain ⟨_, hp1, hp2, hp3⟩ := lookup_params c hwf cc b hb
  by_cases hr : c.get_row b = c.get_row a
  · have hg : (c.cache_lookup cc b).2.get_row b = (c.cache_lookup cc b).2.get_row a := by
      unfold get_row at hr ⊢; rw [hp2, hp3]; exact hr
    have ht : (c.cache_lookup cc b).2.tag_of b = (c.cache_lookup cc b).2.tag_of a := by
      have := hcompat hr
      unfold tag_of at this ⊢; rw [hp2, hp3]; exact this
    rw [resident_same_block _ a b hg ht]
    exact lookup_resident c hwf cc b hb
  · rw [resident_congr _ c a hp1 hp2 hp3
      (lookup_row_other c hwf cc b hb _
        (toNat_ne_of_ne _ _ (get_row_nonneg c hwf b hb).2.1 (get_row_nonneg c hwf a ha).2.1 hr))]
    exact hres

theorem probes_cons (c : Cache) (p : Int × Int) (ps : List (Int × Int)) :
    c.probes (p :: ps) = (c.cache_lookup p.1 p.2).2.probes ps := rfl

theorem probes_concat (c : Cache) (ps : List (Int × Int)) (p : Int × Int) :
    c.probes (ps ++ [p]) = ((c.probes ps).cache_lookup p.1 p.2).2 := by
  simp [probes, List.foldl_append]

/-- A sequence of probes on non-negative addresses keeps the cache well formed and its
geometry fixed. -/
theorem probes_WF (c : Cache) (hwf : c.WF) (ps : List (Int × Int))
    (hps : ∀ p ∈ ps, 0 ≤ p.2) :
    (c.probes ps).WF ∧ (c.probes ps).assoc = c.assoc ∧
      (c.probes ps).blocksize = c.blocksize ∧ (c.probes ps).num_rows = c.num_rows := by
  induction ps generalizing c with
  | nil => exact ⟨hwf, rfl, rfl, rfl⟩
  | cons p ps ih =>
    have hp := hps p (List.mem_cons_self _ _)
    obtain ⟨_, h1, h2, h3⟩ := lookup_params c hwf p.1 p.2 hp
    obtain ⟨i1, i2, i3, i4⟩ := ih (c.cache_lookup p.1 p.2).2 (lookup_WF c hwf p.1 p.2 hp)
      (fun q hq => hps q (List.mem_cons_of_mem _ hq))
    rw [probes_cons]
    exact ⟨i1, i2.trans h1, i3.trans h2, i4.trans h3⟩

theorem probes_keep_resident (c : Cache) (hwf : c.WF) (a : Int) (ha : 0 ≤ a)
    (hres : c.resident a = true) (ps : List (Int × Int))
    (hps : ∀ p ∈ ps, 0 ≤ p.2 ∧ (c.get_row p.2 = c.get_row a → c.tag_of p.2 = c.tag_of a)) :
    (c.probes ps).resident a = true := by
  induction ps generalizing c with
  | nil => exact hres
  | cons p ps ih =>
    obtain ⟨hp, hcompat⟩ := hps p (List.mem_cons_self _ _)
    obtain ⟨_, _, h2, h3⟩ := lookup_params c hwf p.1 p.2 hp
    rw [probes_cons]
    apply ih _ (lookup_WF c hwf p.1 p.2 hp)
      (lookup_keeps_resident c hwf p.1 a p.2 ha hp hres hcompat)
    intro q hq
    obtain ⟨hq0, hqc⟩ := hps q (List.mem_cons_of_mem _ hq)
    refine ⟨hq0, ?_⟩
    unfold get_row tag_of at hqc ⊢
    rw [h2, h3]
    exact hqc

end Cache

/-! ## Repeat-hit -/

/-- C7: on a well-formed cache (`num_rows`, `assoc`, `blocksize` all at least 1) in which
the block of `a >= 0` is not resident, `cache_lookup a` returns Miss; after any
sequence of further probes on non-negative addresses, none of which maps to the row of
`a` with a tag other than that of `a`, the next `cache_lookup a` returns Hit. A freshly
constructed cache is such a state. -/
theorem repeat_hit (c : Cache) (hwf : c.WF) (cc a : Int) (ha : 0 ≤ a)
    (hres : c.resident a = false) (ps : List (Int × Int))
    (hps : ∀ p ∈ ps, 0 ≤ p.2 ∧ (c.get_row p.2 = c.get_row a → c.tag_of p.2 = c.tag_of a))
    (cc' : Int) :
    (c.cache_lookup cc a).1 = false ∧
      (((c.cache_lookup cc a).2.probes ps).cache_lookup cc' a).1 = true ∧
      (∀ size assoc blocksize : Int, (Cache.new size assoc blocksize).WF →
        (Cache.new size assoc blocksize).resident a = false) := by
  refine ⟨by rw [Cache.cache_lookup_fst]; exact hres, ?_,
    fun size assoc blocksize h => Cache.new_not_resident size assoc blocksize h a ha⟩
  obtain ⟨_, _, h2, h3⟩ := Cache.lookup_params c hwf cc a ha
  rw [Cache.cache_lookup_fst]
  apply Cache.probes_keep_resident _ (Cache.lookup_WF c hwf cc a ha) a ha
    (Cache.lookup_resident c hwf cc a ha)
  intro q hq
  obtain ⟨hq0, hqc⟩ := hps q hq
  refine ⟨hq0, ?_⟩
  unfold Cache.get_row Cache.tag_of at hqc ⊢
  rw [h2, h3]
  exact hqc

/-- C7 witness: fresh cache of 2 rows of 2 ways, address 0 (row 0, tag 0); the further
probes 1 (row 1), 3 (row 1), 0 (row 0, same tag), 5 (row 1) do not conflict. -/
theorem repeat_hit_witness :
    (Cache.new 4 2 1).resident 0 = false ∧
      ((Cache.new 4 2 1).cache_lookup 1 0).1 = false ∧
      ((((Cache.new 4 2 1).cache_lookup 1 0).2.probes
        [(2, 1), (3, 3), (4, 0), (5, 5)]).cache_lookup 6 0).1 = true :=
  ⟨by decide,
    (repeat_hit (Cache.new 4 2 1) (by decide) 1 0 (by decide) (by decide)
      [(2, 1), (3, 3), (4, 0), (5, 5)] (by decide) 6).1,
    (repeat_hit (Cache.new 4 2 1) (by decide) 1 0 (by decide) (by decide)
      [(2, 1), (3, 3), (4, 0), (5, 5)] (by decide) 6).2.1⟩

/-! ## Which way a miss overwrites -/

theorem Cache.way_withRow_set (c : Cache) (index : Int) (k : Nat) (w : Int × Int)
    (hi : index.toNat < c.cache.length) (hk : k < (c.row index).length) :
    (c.withRow index ((c.row index).set k w)).way index k = w ∧
      ∀ j : Nat, j ≠ k →
        (c.withRow index ((c.row index).set k w)).way index j = c.way index j := by
  simp only [Cache.way_eq, Cache.row_withRow c index _ hi, Int.toNat_natCast,
    List.getD_eq_getElem?_getD, List.getElem?_set]
  constructor
  · simp [hk]
  · intro j hj
    simp [Ne.symm hj]

/-- C8: on a well-formed cache with `assoc > 1`, when `cache_lookup a` misses and every
way of the row of `a` is occupied, the call rewrites exactly one way `k` of that row:
`k` has the least lru value of the row and every way before `k` has a strictly larger
one; way `k` becomes `(cycle_counter, tag)`, every other way of the row and every other
row is as before. -/
theorem lru_eviction (c : Cache) (hwf : c.WF) (hassoc : 1 < c.assoc) (cc a : Int)
    (ha : 0 ≤ a) (hmiss : (c.cache_lookup cc a).1 = false)
    (hfull : ∀ j : Nat, j < c.assoc.toNat → (c.way (c.get_row a) j).2 ≠ -1) :
    ∃ k : Nat, k < c.assoc.toNat ∧
      (∀ j : Nat, j < c.assoc.toNat →
        (c.way (c.get_row a) k).1 ≤ (c.way (c.get_row a) j).1) ∧
      (∀ j : Nat, j < k → (c.way (c.get_row a) k).1 < (c.way (c.get_row a) j).1) ∧
      (c.cache_lookup cc a).2 =
        c.withRow (c.get_row a) ((c.row (c.get_row a)).set k (cc, c.tag_of a)) ∧
      (c.cache_lookup cc a).2.way (c.get_row a) k = (cc, c.tag_of a) ∧
      (∀ j : Nat, j ≠ k →
        (c.cache_lookup cc a).2.way (c.get_row a) j = c.way (c.get_row a) j) ∧
      (∀ r : Int, (c.get_row a).toNat ≠ r.toNat → (c.cache_lookup cc a).2.row r = c.row r) := by
  rw [Cache.cache_lookup_fst] at hmiss
  have hi := Cache.get_row_lt_length c hwf a ha
  have hl := Cache.row_length c hwf _ hi
  obtain ⟨k, hk, he, _, hlru⟩ :=
    Cache.lookup_miss_assoc c hwf cc a ha (by omega) hmiss
  obtain ⟨hmin, hfirst⟩ := hlru hfull
  obtain ⟨hw1, hw2⟩ := Cache.way_withRow_set c (c.get_row a) k (cc, c.tag_of a) hi (by omega)
  refine ⟨k, hk, hmin, hfirst, he, ?_, ?_, ?_⟩
  · rw [he]; exact hw1
  · rw [he]; exact hw2
  · intro r hr
    exact Cache.lookup_row_other c hwf cc a ha r hr

/-- C8 witness: one row of 2 ways filled by probes of 0 (cycle 1) and 1 (cycle 2), then
a probe of 2 at cycle 3. -/
theorem lru_eviction_witness :
    ((((Cache.new 2 2 1).probes [(1, 0), (2, 1)]).cache_lookup 3 2).1 = false) ∧
      ∃ k : Nat, k < ((Cache.new 2 2 1).probes [(1, 0), (2, 1)]).assoc.toNat ∧
        (∀ j : Nat, j < ((Cache.new 2 2 1).probes [(1, 0), (2, 1)]).assoc.toNat →
          (((Cache.new 2 2 1).probes [(1, 0), (2, 1)]).way
              (((Cache.new 2 2 1).probes [(1, 0), (2, 1)]).get_row 2) k).1 ≤
            (((Cache.new 2 2 1).probes [(1, 0), (2, 1)]).way
              (((Cache.new 2 2 1).probes [(1, 0), (2, 1)]).get_row 2) j).1) ∧
        (((Cache.new 2 2 1).probes [(1, 0), (2, 1)]).cache_lookup 3 2).2.way
            (((Cache.new 2 2 1).probes [(1, 0), (2, 1)]).get_row 2) k =
          (3, ((Cache.new 2 2 1).probes [(1, 0), (2, 1)]).tag_of 2) :=
  ⟨by decide,
    (lru_eviction ((Cache.new 2 2 1).probes [(1, 0), (2, 1)]) (by decide) (by decide) 3 2
      (by decide) (by decide) (by decide)).imp
      (fun _ h => ⟨h.1, h.2.1, h.2.2.2.2.1⟩)⟩

/-- C9, as the code has it: on a well-formed cache with `assoc > 1`, when
`cache_lookup a` misses and the row of `a` has an empty way (tag `-1`), the call
rewrites exactly one way `k` of that row: `k` is empty and no way after `k` is empty
(the empty way of HIGHEST index); way `k` becomes `(cycle_counter, tag)`, every other
way of the row and every other row is as before. -/
theorem empty_way_choice (c : Cache) (hwf : c.WF) (hassoc : 1 < c.assoc) (cc a : Int)
    (ha : 0 ≤ a) (hmiss : (c.cache_lookup cc a).1 = false)
    (hempty : ∃ j : Nat, j < c.assoc.toNat ∧ (c.way (c.get_row a) j).2 = -1) :
    ∃ k : Nat, k < c.assoc.toNat ∧
      (c.way (c.get_row a) k).2 = -1 ∧
      (∀ j : Nat, k < j → j < c.assoc.toNat → (c.way (c.get_row a) j).2 ≠ -1) ∧
      (c.cache_lookup cc a).2 =
        c.withRow (c.get_row a) ((c.row (c.get_row a)).set k (cc, c.tag_of a)) ∧
      (c.cache_lookup cc a).2.way (c.get_row a) k = (cc, c.tag_of a) ∧
      (∀ j : Nat, j ≠ k →
        (c.cache_lookup cc a).2.way (c.get_row a) j = c.way (c.get_row a) j) ∧
      (∀ r : Int, (c.get_row a).toNat ≠ r.toNat → (c.cache_lookup cc a).2.row r = c.row r) := by
  rw [Cache.cache_lookup_fst] at hmiss
  have hi := Cache.get_row_lt_length c hwf a ha
  have hl := Cache.row_length c hwf _ hi
  obtain ⟨k, hk, he, hlast, _⟩ :=
    Cache.lookup_miss_assoc c hwf cc a ha (by omega) hmiss
  obtain ⟨hke, hafter⟩ := hlast hempty
  obtain ⟨hw1, hw2⟩ := Cache.way_withRow_set c (c.get_row a) k (cc, c.tag_of a) hi (by omega)
  refine ⟨k, hk, hke, hafter, he, ?_, ?_, ?_⟩
  · rw [he]; exact hw1
  · rw [he]; exact hw2
  · intro r hr
    exact Cache.lookup_row_other c hwf cc a ha r hr

/-- C9 witness: a fresh row of 3 ways, probe of address 0 at cycle 1. -/
theorem empty_way_choice_witness :
    ((Cache.new 3 3 1).cache_lookup 1 0).1 = false ∧
      ∃ k : Nat, k < (Cache.new 3 3 1).assoc.toNat ∧
        ((Cache.new 3 3 1).way ((Cache.new 3 3 1).get_row 0) k).2 = -1 ∧
        (∀ j : Nat, k < j → j < (Cache.new 3 3 1).assoc.toNat →
          ((Cache.new 3 3 1).way ((Cache.new 3 3 1).get_row 0) j).2 ≠ -1) ∧
        ((Cache.new 3 3 1).cache_lookup 1 0).2.way ((Cache.new 3 3 1).get_row 0) k =
          (1, (Cache.new 3 3 1).tag_of 0) :=
  ⟨by decide,
    (empty_way_choice (Cache.new 3 3 1) (by decide) (by decide) 1 0 (by decide) (by decide)
      ⟨0, by decide, by decide⟩).imp
      (fun _ h => ⟨h.1, h.2.1, h.2.2.1, h.2.2.2.2.1⟩)⟩

/-- C9 refuted as stated: in a fresh cache of one row of 2 ways both ways are empty, so
the empty way of lowest index is way 0; `cache_lookup 0` at cycle 1 misses, leaves way
0 empty and writes `(1, 0)` into way 1. -/
theorem fresh_row_fills_last_way :
    (Cache.new 2 2 1).way 0 0 = (0, -1) ∧
      (Cache.new 2 2 1).way 0 1 = (0, -1) ∧
      ((Cache.new 2 2 1).cache_lookup 1 0).1 = false ∧
      ((Cache.new 2 2 1).cache_lookup 1 0).2.way 0 0 = (0, -1) ∧
      ((Cache.new 2 2 1).cache_lookup 1 0).2.way 0 1 = (1, 0) ∧
      ¬ (((Cache.new 2 2 1).cache_lookup 1 0).2.way 0 0 = (1, 0)) := by
  decide

/-! ## Direct-mapped caches -/

/-- Residency of `a` after a probe of `b` on a direct-mapped cache: decided by `b` alone
when `b` maps to the row of `a`, unchanged otherwise. -/
theorem Cache.lookup_direct_resident (c : Cache) (hwf : c.WF) (h1 : c.assoc = 1)
    (cc a b : Int) (ha : 0 ≤ a) (hb : 0 ≤ b) :
    (c.cache_lookup cc b).2.resident a =
      if c.get_row b = c.get_row a then decide (c.tag_of b = c.tag_of a)
      else c.resident a := by
  obtain ⟨r, hr, he, ⟨w, hw, hwt⟩, hall, _⟩ := Cache.lookup_shape c hwf cc b hb
  have hi := Cache.get_row_lt_length c hwf b hb
  split
  · next hrow =>
    rw [he]
    have hrow' : (c.withRow (c.get_row b) r).row (c.get_row a) = r := by
      rw [← hrow]; exact Cache.row_withRow c _ r hi
    rw [Bool.eq_iff_iff]
    show (c.withRow (c.get_row b) r).holds (c.get_row a) (c.tag_of a) = true ↔ _
    rw [Cache.holds_iff _ _ _ (by rw [hrow']; exact hr), hrow']
    simp only [decide_eq_true_eq]
    constructor
    · rintro ⟨v, hv, hvt⟩
      rw [← hvt, hall h1 v hv]
    · intro h
      exact ⟨w, hw, hwt.trans h⟩
  · next hrow =>
    obtain ⟨_, hp1, hp2, hp3⟩ := Cache.lookup_params c hwf cc b hb
    exact Cache.resident_congr _ c a hp1 hp2 hp3
      (Cache.lookup_row_other c hwf cc b hb _
        (Cache.toNat_ne_of_ne _ _ (Cache.get_row_nonneg c hwf b hb).2.1
          (Cache.get_row_nonneg c hwf a ha).2.1 hrow))

/-- On a direct-mapped cache, a probe after a sequence of probes hits exactly when the
most recent probe of the sequence that mapped to the same row had the same tag (and,
when there is none, when the block was resident at the start). -/
theorem Cache.direct_hit_iff (c : Cache) (hwf : c.WF) (h1 : c.assoc = 1) (a : Int)
    (ha : 0 ≤ a) (ps : List (Int × Int)) (hps : ∀ p ∈ ps, 0 ≤ p.2) :
    (c.probes ps).resident a =
      match ps.reverse.find? (fun p => decide (c.get_row p.2 = c.get_row a)) with
      | some p => decide (c.tag_of p.2 = c.tag_of a)
      | none => c.resident a := by
  induction ps using List.reverseRecOn with
  | nil => rfl
  | append_singleton xs p ih =>
    have hxs : ∀ q ∈ xs, 0 ≤ q.2 := fun q hq => hps q (List.mem_append_left _ hq)
    have hp : 0 ≤ p.2 := hps p (List.mem_append_right _ (List.mem_singleton_self p))
    obtain ⟨hwf', g1, g2, g3⟩ := Cache.probes_WF c hwf xs hxs
    have hg : ∀ x : Int, (c.probes xs).get_row x = c.get_row x := by
      intro x; unfold Cache.get_row; rw [g2, g3]
    have ht : ∀ x : Int, (c.probes xs).tag_of x = c.tag_of x := by
      intro x; unfold Cache.tag_of; rw [g2, g3]
    rw [Cache.probes_concat, List.reverse_concat, List.find?_cons,
      Cache.lookup_direct_resident _ hwf' (g1.trans h1) p.1 a p.2 ha hp,
      hg, hg, ht, ht, ih hxs]
    by_cases hrow : c.get_row p.2 = c.get_row a
    · simp [hrow]
    · simp [hrow]

/-- C10: on a well-formed direct-mapped cache (`assoc = 1`), after `cache_lookup a` the
single way of the row of `a` holds the tag of `a` and no other row has changed; a hit
changes nothing and a miss replaces the resident entry by `(0, tag)`; a probe made
after a sequence of probes hits exactly when the most recent probe of the sequence that
mapped to the same row had the same tag (when there is none: when the block was
resident at the start, which it is not in a fresh cache); with size 4, assoc 1, blocksize 1 the loads 0, 4, 8, 0 print
MISS, MISS, MISS, MISS. -/
theorem direct_mapped_overwrite (c : Cache) (hwf : c.WF) (h1 : c.assoc = 1) (cc a : Int)
    (ha : 0 ≤ a) (ps : List (Int × Int)) (hps : ∀ p ∈ ps, 0 ≤ p.2) :
    (∃ s : Int, (c.cache_lookup cc a).2.row (c.get_row a) = [(s, c.tag_of a)]) ∧
      (∀ r : Int, (c.get_row a).toNat ≠ r.toNat → (c.cache_lookup cc a).2.row r = c.row r) ∧
      ((c.cache_lookup cc a).1 = true → (c.cache_lookup cc a).2 = c) ∧
      ((c.cache_lookup cc a).1 = false →
        (c.cache_lookup cc a).2 = c.withRow (c.get_row a) [(0, c.tag_of a)]) ∧
      ((c.probes ps).cache_lookup cc a).1 =
        (match ps.reverse.find? (fun p => decide (c.get_row p.2 = c.get_row a)) with
          | some p => decide (c.tag_of p.2 = c.tag_of a)
          | none => c.resident a) ∧
      (∀ size blocksize : Int, c = Cache.new size 1 blocksize → c.resident a = false) ∧
      (run_l1 (Cache.new 4 1 1) 0
          [(0, opLw, 0), (4, opLw, 1), (8, opLw, 2), (0, opLw, 3)]).2.map LogEntry.status =
        ["MISS", "MISS", "MISS", "MISS"] := by
  have hi := Cache.get_row_lt_length c hwf a ha
  refine ⟨?_, fun r hr => Cache.lookup_row_other c hwf cc a ha r hr, ?_, ?_, ?_,
    fun size blocksize h => by
      subst h; exact Cache.new_not_resident size 1 blocksize hwf a ha,
    by decide⟩
  · obtain ⟨r, hr, he, _, hall, _⟩ := Cache.lookup_shape c hwf cc a ha
    rw [he, Cache.row_withRow c _ r hi]
    rw [h1] at hr
    match r, hr, hall with
    | [v], _, hall =>
      refine ⟨v.1, ?_⟩
      have := hall h1 v (List.mem_singleton_self v)
      rw [← this]
  · intro h
    rw [Cache.cache_lookup_fst] at h
    rw [Cache.lookup_hit c hwf cc a ha h, if_pos h1]
  · intro h
    rw [Cache.cache_lookup_fst] at h
    exact Cache.lookup_miss_direct c hwf cc a ha h1 h
  · rw [Cache.cache_lookup_fst]
    exact Cache.direct_hit_iff c hwf h1 a ha ps hps

/-- C10 witness: size 4, assoc 1, blocksize 1; after the probes 0, 4, 8 the probe of 0
misses, the most recent probe of row 0 being address 8 with tag 2. -/
theorem direct_mapped_overwrite_witness :
    (((Cache.new 4 1 1).probes [(1, 0), (2, 4), (3, 8)]).cache_lookup 4 0).1 = false ∧
      (run_l1 (Cache.new 4 1 1) 0
          [(0, opLw, 0), (4, opLw, 1), (8, opLw, 2), (0, opLw, 3)]).2.map LogEntry.status =
        ["MISS", "MISS", "MISS", "MISS"] :=
  ⟨(direct_mapped_overwrite (Cache.new 4 1 1) (by decide) (by decide) 4 0 (by decide)
      [(1, 0), (2, 4), (3, 8)] (by decide)).2.2.2.2.1,
    (direct_mapped_overwrite (Cache.new 4 1 1) (by decide) (by decide) 4 0 (by decide)
      [(1, 0), (2, 4), (3, 8)] (by decide)).2.2.2.2.2.2⟩

/-! ## Inclusion of L1 in L2 -/

/-- A block id is determined by its row and its tag. -/
theorem block_eq_of_row_tag (q q' n : Int) (hr : q % n = q' % n) (ht : q / n = q' / n) :
    q = q' := by
  rw [← Int.ediv_add_emod q n, ← Int.ediv_add_emod q' n, hr, ht]

/-- Probing both caches with the same address keeps inclusion. -/
theorem inclusive_lookup_both (L1 L2 : Cache) (hwf1 : L1.WF) (hwf2 : L2.WF)
    (h1 : L1.assoc = 1) (hbs : L1.blocksize = L2.blocksize)
    (hdvd : L1.num_rows ∣ L2.num_rows) (hinc : Inclusive L1 L2) (cc cc' : Int) (a : Nat) :
    Inclusive (L1.cache_lookup cc a).2 (L2.cache_lookup cc' a).2 := by
  intro x hx
  have ha : (0 : Int) ≤ (a : Int) := Int.natCast_nonneg a
  have hx0 : (0 : Int) ≤ (x : Int) := Int.natCast_nonneg x
  rw [Cache.lookup_direct_resident L1 hwf1 h1 cc x a hx0 ha] at hx
  obtain ⟨_, p1, p2, p3⟩ := Cache.lookup_params L2 hwf2 cc' a ha
  by_cases hrow : L1.get_row a = L1.get_row x
  · rw [if_pos hrow] at hx
    have htag : L1.tag_of a = L1.tag_of x := by simpa using hx
    rw [(Cache.get_row_nonneg L1 hwf1 a ha).1, (Cache.get_row_nonneg L1 hwf1 x hx0).1] at hrow
    rw [(Cache.tag_of_nonneg L1 hwf1 a ha).1, (Cache.tag_of_nonneg L1 hwf1 x hx0).1] at htag
    have hblk := block_eq_of_row_tag _ _ _ hrow htag
    rw [hbs] at hblk
    have hg : (L2.cache_lookup cc' a).2.get_row a = (L2.cache_lookup cc' a).2.get_row x := by
      unfold Cache.get_row
      rw [p2, p3, Int.tdiv_eq_ediv ha (by have := hwf2.2.1; omega),
        Int.tdiv_eq_ediv hx0 (by have := hwf2.2.1; omega), hblk]
    have ht : (L2.cache_lookup cc' a).2.tag_of a = (L2.cache_lookup cc' a).2.tag_of x := by
      unfold Cache.tag_of
      rw [p2, p3, Int.tdiv_eq_ediv ha (by have := hwf2.2.1; omega),
        Int.tdiv_eq_ediv hx0 (by have := hwf2.2.1; omega), hblk]
    rw [Cache.resident_same_block _ x a hg ht]
    exact Cache.lookup_resident L2 hwf2 cc' a ha
  · rw [if_neg hrow] at hx
    apply Cache.lookup_keeps_resident L2 hwf2 cc' x a hx0 ha (hinc x hx)
    intro hrow2
    exfalso
    apply hrow
    rw [(Cache.get_row_nonneg L2 hwf2 a ha).1, (Cache.get_row_nonneg L2 hwf2 x hx0).1,
      ← hbs] at hrow2
    rw [(Cache.get_row_nonneg L1 hwf1 a ha).1, (Cache.get_row_nonneg L1 hwf1 x hx0).1,
      ← Int.emod_emod_of_dvd _ hdvd, hrow2, Int.emod_emod_of_dvd _ hdvd]

/-- One access through `l1_l2_cache` keeps the caches well formed, the geometry fixed
and L1 included in L2, when L1 is direct-mapped, block sizes agree and the row count of
L1 divides that of L2. -/
theorem inclusive_step (L1 L2 : Cache) (hwf1 : L1.WF) (hwf2 : L2.WF)
    (h1 : L1.assoc = 1) (hbs : L1.blocksize = L2.blocksize)
    (hdvd : L1.num_rows ∣ L2.num_rows) (hinc : Inclusive L1 L2) (cc : Int) (a op : Nat)
    (pc : Int) :
    (l1_l2_cache L1 L2 cc a op pc).1.1.WF ∧ (l1_l2_cache L1 L2 cc a op pc).1.2.WF ∧
      (l1_l2_cache L1 L2 cc a op pc).1.1.assoc = 1 ∧
      (l1_l2_cache L1 L2 cc a op pc).1.1.blocksize =
        (l1_l2_cache L1 L2 cc a op pc).1.2.blocksize ∧
      (l1_l2_cache L1 L2 cc a op pc).1.1.num_rows ∣
        (l1_l2_cache L1 L2 cc a op pc).1.2.num_rows ∧
      Inclusive (l1_l2_cache L1 L2 cc a op pc).1.1 (l1_l2_cache L1 L2 cc a op pc).1.2 := by
  have ha : (0 : Int) ≤ (a : Int) := Int.natCast_nonneg a
  obtain ⟨_, p1, p2, p3⟩ := Cache.lookup_params L1 hwf1 cc a ha
  obtain ⟨_, q1, q2, q3⟩ := Cache.lookup_params L2 hwf2 cc a ha
  have both : (L1.cache_lookup cc a).2.WF ∧ (L2.cache_lookup cc a).2.WF ∧
      (L1.cache_lookup cc a).2.assoc = 1 ∧
      (L1.cache_lookup cc a).2.blocksize = (L2.cache_lookup cc a).2.blocksize ∧
      (L1.cache_lookup cc a).2.num_rows ∣ (L2.cache_lookup cc a).2.num_rows ∧
      Inclusive (L1.cache_lookup cc a).2 (L2.cache_lookup cc a).2 :=
    ⟨Cache.lookup_WF L1 hwf1 cc a ha, Cache.lookup_WF L2 hwf2 cc a ha, p1.trans h1,
      by rw [p2, q2]; exact hbs, by rw [p3, q3]; exact hdvd,
      inclusive_lookup_both L1 L2 hwf1 hwf2 h1 hbs hdvd hinc cc cc a⟩
  by_cases hop : op = opSw
  · subst hop
    rw [l1_l2_cache_store]
    exact both
  · by_cases hr1 : L1.resident a = true
    · rw [l1_l2_cache_load_hit L1 L2 cc a op pc hop hr1,
        Cache.lookup_hit L1 hwf1 cc a ha hr1, if_pos h1]
      exact ⟨hwf1, hwf2, h1, hbs, hdvd, hinc⟩
    · have hr1' : L1.resident a = false := by simpa using hr1
      by_cases hr2 : L2.resident a = true
      · rw [l1_l2_cache_load_l2_hit L1 L2 cc a op pc hop hr1' hr2]
        exact both
      · have hr2' : L2.resident a = false := by simpa using hr2
        rw [l1_l2_cache_load_miss L1 L2 cc a op pc hop hr1' hr2',
          Cache.lookup_hit _ both.1 cc a ha (Cache.lookup_resident L1 hwf1 cc a ha),
          if_pos both.2.2.1]
        exact both

theorem run_l1_l2_cons (L1 L2 : Cache) (cc : Int) (acc : Nat × Nat × Int)
    (rest : List (Nat × Nat × Int)) :
    (run_l1_l2 L1 L2 cc (acc :: rest)).1 =
      (run_l1_l2 (l1_l2_cache L1 L2 (cc + 1) acc.1 acc.2.1 acc.2.2).1.1
        (l1_l2_cache L1 L2 (cc + 1) acc.1 acc.2.1 acc.2.2).1.2 (cc + 1) rest).1 := rfl

theorem inclusive_run (accs : List (Nat × Nat × Int)) (L1 L2 : Cache) (hwf1 : L1.WF)
    (hwf2 : L2.WF) (h1 : L1.assoc = 1) (hbs : L1.blocksize = L2.blocksize)
    (hdvd : L1.num_rows ∣ L2.num_rows) (hinc : Inclusive L1 L2) (cc : Int) :
    Inclusive (run_l1_l2 L1 L2 cc accs).1.1 (run_l1_l2 L1 L2 cc accs).1.2 := by
  induction accs generalizing L1 L2 cc with
  | nil => exact hinc
  | cons acc rest ih =>
    obtain ⟨s1, s2, s3, s4, s5, s6⟩ :=
      inclusive_step L1 L2 hwf1 hwf2 h1 hbs hdvd hinc (cc + 1) acc.1 acc.2.1 acc.2.2
    rw [run_l1_l2_cons]
    exact ih _ _ s1 s2 s3 s4 s5 s6 (cc + 1)

/-- C5, as the code has it: when L1 is direct-mapped, both caches have the same block
size and the row count of L1 divides the row count of L2, then in every state reached
from the two freshly constructed caches by any sequence of accesses through
`l1_l2_cache` (cycle counter increased by one per access), every address whose block
is resident in L1 has its block resident in L2. -/
theorem inclusive_direct_mapped_l1 (size1 size2 assoc2 blocksize : Int)
    (hwf1 : (Cache.new size1 1 blocksize).WF) (hwf2 : (Cache.new size2 assoc2 blocksize).WF)
    (hdvd : (Cache.new size1 1 blocksize).num_rows ∣ (Cache.new size2 assoc2 blocksize).num_rows)
    (cc : Int) (accs : List (Nat × Nat × Int)) :
    Inclusive
      (run_l1_l2 (Cache.new size1 1 blocksize) (Cache.new size2 assoc2 blocksize) cc accs).1.1
      (run_l1_l2 (Cache.new size1 1 blocksize) (Cache.new size2 assoc2 blocksize) cc accs).1.2 := by
  apply inclusive_run accs _ _ hwf1 hwf2 rfl rfl hdvd
  intro x hx
  rw [Cache.new_not_resident size1 1 blocksize hwf1 x (Int.natCast_nonneg x)] at hx
  exact absurd hx (by decide)

/-- C5 witness: L1 of 2 rows direct-mapped, L2 of 4 rows of 2 ways, block size 2; after
the accesses lw 0, lw 8, sw 16, lw 0 the block of address 0 is in L1 and in L2. -/
theorem inclusive_direct_mapped_l1_witness :
    (run_l1_l2 (Cache.new 4 1 2) (Cache.new 16 2 2) 0
        [(0, opLw, 0), (8, opLw, 1), (16, opSw, 2), (0, opLw, 3)]).1.1.resident
        ((0 : Nat) : Int) = true ∧
      (run_l1_l2 (Cache.new 4 1 2) (Cache.new 16 2 2) 0
        [(0, opLw, 0), (8, opLw, 1), (16, opSw, 2), (0, opLw, 3)]).1.2.resident
        ((0 : Nat) : Int) = true :=
  ⟨by decide,
    inclusive_direct_mapped_l1 4 16 2 2 (by decide) (by decide) (by decide) 0
      [(0, opLw, 0), (8, opLw, 1), (16, opSw, 2), (0, opLw, 3)] 0 (by decide)⟩

/-- C5 refuted as stated: from fresh caches L1 (size 2, assoc 2, blocksize 1: one row of
two ways) and L2 (size 4, assoc 1, blocksize 1: four rows of one way) the loads 0, 4
reach a state where the block of address 0 is resident in L1 and not in L2. -/
theorem inclusion_fails :
    (run_l1_l2 (Cache.new 2 2 1) (Cache.new 4 1 1) 0
        [(0, opLw, 0), (4, opLw, 1)]).1.1.resident ((0 : Nat) : Int) = true ∧
      (run_l1_l2 (Cache.new 2 2 1) (Cache.new 4 1 1) 0
        [(0, opLw, 0), (4, opLw, 1)]).1.2.resident ((0 : Nat) : Int) = false ∧
      ¬ Inclusive
        (run_l1_l2 (Cache.new 2 2 1) (Cache.new 4 1 1) 0 [(0, opLw, 0), (4, opLw, 1)]).1.1
        (run_l1_l2 (Cache.new 2 2 1) (Cache.new 4 1 1) 0 [(0, opLw, 0), (4, opLw, 1)]).1.2 :=
  ⟨by decide, by decide, fun h => absurd (h 0 (by decide)) (by decide)⟩

/-! ## The execution engine: registers, pc and halting -/

theorem write_same (a : Nat → Nat) (k v : Nat) : write a k v k = v := by
  simp [write]

theorem write_ne (a : Nat → Nat) (k v i : Nat) (h : i ≠ k) : write a k v i = a i := by
  simp [write, h]

theorem wrap_pc_reg (m : Machine) : (wrap_pc m).reg = m.reg := by
  unfold wrap_pc; split <;> rfl

theorem wrap_pc_mem (m : Machine) : (wrap_pc m).mem = m.mem := by
  unfold wrap_pc; split <;> rfl

theorem wrap_pc_of_lt (m : Machine) (h : m.pc < 65536) : wrap_pc m = m := by
  unfold wrap_pc REG_SIZE
  rw [if_neg (by omega)]

theorem threeRegInstr_reg_zero (m : Machine) : (threeRegInstr m).reg 0 = 0 := by
  unfold threeRegInstr
  split_ifs <;> simp [write]

theorem twoRegInstr_reg_zero (m : Machine) (opCode : Nat) (cache_size : Int)
    (caches : List Cache) (cc : Int) :
    (twoRegInstr m opCode cache_size caches cc).1.reg 0 = 0 := by
  unfold twoRegInstr
  split_ifs <;> simp [write]

theorem simulate_iter_reg_zero (s : Sim) (h0 : s.machine.reg 0 = 0) :
    (simulate_iter s).2.machine.reg 0 = 0 := by
  unfold simulate_iter
  split_ifs
  · simp only [wrap_pc_reg]; exact threeRegInstr_reg_zero _
  · simp only [wrap_pc_reg]; rw [write_ne _ _ _ _ (by decide)]; exact h0
  · exact h0
  · simp only [wrap_pc_reg]; exact h0
  · simp only [wrap_pc_reg]; exact twoRegInstr_reg_zero _ _ _ _ _

theorem run_iters_reg_zero (n : Nat) (s : Sim) (h0 : s.machine.reg 0 = 0) :
    (run_iters n s).2.machine.reg 0 = 0 := by
  induction n generalizing s with
  | zero => exact h0
  | succ n ih =>
    unfold run_iters
    split_ifs
    · exact simulate_iter_reg_zero s h0
    · exact ih _ (simulate_iter_reg_zero s h0)
    · exact h0

/-- C12: `threeRegInstr` and `twoRegInstr` end with register 0 equal to 0 whatever the
instruction word and its destination field; one pass of the loop of `simulate` keeps
`reg[0] = 0` for every instruction word (`jal` and `j` write no register 0); hence after
any number of passes from the state in which `main` calls `simulate` (all registers
zero), register 0 reads 0. -/
theorem zero_register :
    (∀ m : Machine, (threeRegInstr m).reg 0 = 0) ∧
      (∀ (m : Machine) (opCode : Nat) (cache_size : Int) (caches : List Cache) (cc : Int),
        (twoRegInstr m opCode cache_size caches cc).1.reg 0 = 0) ∧
      (∀ s : Sim, s.machine.reg 0 = 0 → (simulate_iter s).2.machine.reg 0 = 0) ∧
      (∀ (mem : Nat → Nat) (cache_size : Int) (caches : List Cache) (n : Nat),
        (run_iters n (initial mem cache_size caches)).2.machine.reg 0 = 0) :=
  ⟨threeRegInstr_reg_zero, twoRegInstr_reg_zero, simulate_iter_reg_zero,
    fun _ _ _ n => run_iters_reg_zero n _ rfl⟩

theorem twoRegInstr_machine (m : Machine) (opCode : Nat) (cache_size cache_size' : Int)
    (caches caches' : List Cache) (cc cc' : Int) :
    (twoRegInstr m opCode cache_size caches cc).1 =
      (twoRegInstr m opCode cache_size' caches' cc').1 := by
  unfold twoRegInstr
  split_ifs <;> rfl

theorem simulate_iter_machine (s s' : Sim) (h : s.machine = s'.machine) :
    (simulate_iter s).1 = (simulate_iter s').1 ∧
      (simulate_iter s).2.machine = (simulate_iter s').2.machine := by
  unfold simulate_iter
  simp only [h]
  split_ifs
  · exact ⟨rfl, rfl⟩
  · exact ⟨rfl, rfl⟩
  · exact ⟨rfl, rfl⟩
  · exact ⟨rfl, rfl⟩
  · exact ⟨rfl, congrArg wrap_pc (twoRegInstr_machine _ _ _ _ _ _ _ _)⟩

theorem run_iters_machine (n : Nat) (s s' : Sim) (h : s.machine = s'.machine) :
    (run_iters n s).1 = (run_iters n s').1 ∧
      (run_iters n s).2.machine = (run_iters n s').2.machine := by
  induction n generalizing s s' with
  | zero => exact ⟨rfl, h⟩
  | succ n ih =>
    obtain ⟨h1, h2⟩ := simulate_iter_machine s s' h
    unfold run_iters
    rw [h, h1]
    split_ifs
    · exact ⟨rfl, h2⟩
    · exact ih _ _ h2
    · exact ⟨rfl, h⟩

/-- C17: the machine computed by `twoRegInstr` does not depend on `cache_size`, on the
caches or on the cycle counter; two simulation states with the same memory, registers
and pc give, after one pass of the loop of `simulate` and after any number of passes,
the same return decision and the same memory, registers and pc, whatever their cache
arguments (no cache, one cache, two caches, in any state). -/
theorem engine_independent_of_cache :
    (∀ (m : Machine) (opCode : Nat) (cache_size cache_size' : Int)
        (caches caches' : List Cache) (cc cc' : Int),
        (twoRegInstr m opCode cache_size caches cc).1 =
          (twoRegInstr m opCode cache_size' caches' cc').1) ∧
      (∀ s s' : Sim, s.machine = s'.machine →
        (simulate_iter s).1 = (simulate_iter s').1 ∧
          (simulate_iter s).2.machine = (simulate_iter s').2.machine) ∧
      (∀ (n : Nat) (s s' : Sim), s.machine = s'.machine →
        (run_iters n s).1 = (run_iters n s').1 ∧
          (run_iters n s).2.machine = (run_iters n s').2.machine) :=
  ⟨twoRegInstr_machine, simulate_iter_machine, run_iters_machine⟩

/-! ## Halting -/

theorem opJ_ne_zero : opJ ≠ 0 := by decide

theorem opJ_ne_opJal : opJ ≠ opJal := by decide

theorem simulate_iter_halt_iff (s : Sim) :
    (simulate_iter s).1 = true ↔
      (fetch s.machine &&& opMSB = opJ ∧ fetch s.machine &&& 8191 = s.machine.pc) := by
  unfold simulate_iter
  split_ifs with h1 h2 h3 h4
  · simp only [Bool.false_eq_true, false_iff]
    rintro ⟨h, _⟩
    exact opJ_ne_zero (h.symm.trans h1)
  · simp only [Bool.false_eq_true, false_iff]
    rintro ⟨h, _⟩
    exact opJ_ne_opJal (h.symm.trans h2)
  · simp only [true_iff]; exact h3
  · simp only [Bool.false_eq_true, false_iff]
    exact h3
  · simp only [Bool.false_eq_true, false_iff]
    exact h3

theorem simulate_iter_halt_state (s : Sim) (h : (simulate_iter s).1 = true) :
    (simulate_iter s).2 = { s with cycle_counter := s.cycle_counter + 1 } := by
  have hj := (simulate_iter_halt_iff s).mp h
  unfold simulate_iter
  rw [if_neg (fun h0 => opJ_ne_zero (hj.1.symm.trans h0)),
    if_neg (fun h0 => opJ_ne_opJal (hj.1.symm.trans h0)), if_pos hj]

theorem land_8191_lt (x : Nat) : x &&& 8191 < 8192 := by
  have := Nat.and_pow_two_sub_one_eq_mod x 13
  norm_num at this
  rw [this]
  exact Nat.mod_lt _ (by decide)

theorem simulate_iter_jump (s : Sim) (hj : fetch s.machine &&& opMSB = opJ)
    (hne : fetch s.machine &&& 8191 ≠ s.machine.pc) :
    simulate_iter s =
      (false, { s with
        machine := { s.machine with pc := fetch s.machine &&& 8191 }
        cycle_counter := s.cycle_counter + 1 }) := by
  unfold simulate_iter
  rw [if_neg (fun h0 => opJ_ne_zero (hj.symm.trans h0)),
    if_neg (fun h0 => opJ_ne_opJal (hj.symm.trans h0)),
    if_neg (fun h => hne h.2), if_pos ⟨hj, hne⟩,
    wrap_pc_of_lt _ (by
      show fetch s.machine &&& 8191 < 65536
      have := land_8191_lt (fetch s.machine); omega)]

/-- C14: one pass of the loop of `simulate` returns exactly when the instruction fetched
at `pc & 8191` has opcode `j` (top three bits) and its 13-bit immediate equals the
current pc; when it returns, memory, registers and pc are as before (only the cycle
counter has advanced); a `j` whose immediate differs from pc does not return and sets
pc to the immediate, leaving memory and registers alone; a program whose word 0 is
`j 0` makes `simulate` return within its first pass at pc 0 with all registers zero,
memory untouched and nothing printed. -/
theorem halt_on_self_jump (s : Sim) :
    ((simulate_iter s).1 = true ↔
        (fetch s.machine &&& opMSB = opJ ∧ fetch s.machine &&& 8191 = s.machine.pc)) ∧
      ((simulate_iter s).1 = true →
        (simulate_iter s).2.machine = s.machine ∧ (simulate_iter s).2.out = s.out ∧
          (simulate_iter s).2.caches = s.caches) ∧
      (fetch s.machine &&& opMSB = opJ → fetch s.machine &&& 8191 ≠ s.machine.pc →
        (simulate_iter s).1 = false ∧
          (simulate_iter s).2.machine.pc = fetch s.machine &&& 8191 ∧
          (simulate_iter s).2.machine.mem = s.machine.mem ∧
          (simulate_iter s).2.machine.reg = s.machine.reg) ∧
      (∀ (mem : Nat → Nat) (cache_size : Int) (caches : List Cache) (fuel : Nat),
        mem 0 % 65536 = 16384 →
          (simulate (fuel + 1) (initial mem cache_size caches)).map Sim.machine =
              some (initial mem cache_size caches).machine ∧
            (simulate (fuel + 1) (initial mem cache_size caches)).map Sim.out = some []) := by
  refine ⟨simulate_iter_halt_iff s, ?_, ?_, ?_⟩
  · intro h
    rw [simulate_iter_halt_state s h]
    exact ⟨rfl, rfl, rfl⟩
  · intro hj hne
    rw [simulate_iter_jump s hj hne]
    exact ⟨rfl, rfl, rfl, rfl⟩
  · intro mem cache_size caches fuel hm
    have hf : fetch (initial mem cache_size caches).machine = 16384 := by
      show mem (0 &&& 8191) % 65536 = 16384
      exact hm
    have hpc : (initial mem cache_size caches).machine.pc = 0 := rfl
    have hh : (simulate_iter (initial mem cache_size caches)).1 = true := by
      rw [simulate_iter_halt_iff, hf, hpc]
      exact ⟨by decide, by decide⟩
    have hr : run_iters (fuel + 1) (initial mem cache_size caches) =
        (true, (simulate_iter (initial mem cache_size caches)).2) := by
      show (if (initial mem cache_size caches).machine.pc < REG_SIZE then _ else _) = _
      rw [hpc, if_pos (by decide), if_pos hh]
    unfold simulate
    rw [hr, simulate_iter_halt_state _ hh]
    exact ⟨rfl, rfl⟩

/-! ## Immediate-format instructions -/

theorem land_127 (x : Nat) : x &&& 127 = x % 128 := by
  have := Nat.and_pow_two_sub_one_eq_mod x 7
  norm_num at this
  exact this

theorem sign_extend_cases :
    ∀ imm : Nat, imm < 128 →
      (if imm &&& 64 ≠ 0 then imm ||| 65408 else imm) =
        (if 64 ≤ imm then imm + 65408 else imm) := by
  decide

/-- The sign-extended `immVal` is the signed immediate, plus `2^16` when negative. -/
theorem immVal_int (instruction : Nat) :
    ((immVal instruction : Nat) : Int) =
      sext7 (instruction &&& 127) + (if 64 ≤ instruction &&& 127 then 65536 else 0) := by
  have hlt : instruction &&& 127 < 128 := by
    rw [land_127]; exact Nat.mod_lt _ (by decide)
  unfold immVal sext7
  rw [sign_extend_cases _ hlt]
  split
  · push_cast; omega
  · omega

/-- An opcode other than register format, `jal` and `j` goes to `twoRegInstr`. -/
theorem simulate_iter_two (s : Sim) (h0 : fetch s.machine &&& opMSB ≠ 0)
    (h1 : fetch s.machine &&& opMSB ≠ opJal) (h2 : fetch s.machine &&& opMSB ≠ opJ) :
    simulate_iter s =
      (false, { s with
        machine := wrap_pc (twoRegInstr s.machine (fetch s.machine &&& opMSB) s.cache_size
          s.caches (s.cycle_counter + 1)).1
        cycle_counter := s.cycle_counter + 1
        caches := (twoRegInstr s.machine (fetch s.machine &&& opMSB) s.cache_size
          s.caches (s.cycle_counter + 1)).2.1
        out := s.out ++ (twoRegInstr s.machine (fetch s.machine &&& opMSB) s.cache_size
          s.caches (s.cycle_counter + 1)).2.2 }) := by
  unfold simulate_iter
  rw [if_neg h0, if_neg h1, if_neg (fun h => h2 h.1), if_neg (fun h => h2 h.1)]

theorem twoRegInstr_jeq (m : Machine) (cache_size : Int) (caches : List Cache) (cc : Int) :
    (twoRegInstr m opJeq cache_size caches cc).1.pc =
      if m.reg (regA (fetch m)) = m.reg (regB (fetch m)) then
        (if (m.pc + (immVal (fetch m) + 1)) % 65536 ≥ 128 then
          (m.pc + (immVal (fetch m) + 1)) % 65536 % 128
        else (m.pc + (immVal (fetch m) + 1)) % 65536)
      else (m.pc + 1) % 65536 := by
  unfold twoRegInstr
  rw [if_neg (by decide), if_pos rfl]
  split <;> rfl

theorem wrap_pc_pc_of_lt (m : Machine) (h : m.pc < 65536) : (wrap_pc m).pc = m.pc := by
  rw [wrap_pc_of_lt m h]

/-- C15: when the instruction fetched is `jeq`: if `reg[regA] = reg[regB]`, the next pc
is `(pc + sext7(imm) + 1) mod 128` computed over the integers, a value below 128; if
`reg[regA] != reg[regB]`, the next pc is `pc + 1` as a `uint16_t`, that is
`(pc + 1) mod 2^16`, which is `pc + 1` without any reduction whenever
`pc + 1 < 2^16`. -/
theorem jeq_wraparound (s : Sim) (hop : fetch s.machine &&& opMSB = opJeq) :
    (s.machine.reg (regA (fetch s.machine)) = s.machine.reg (regB (fetch s.machine)) →
        (((simulate_iter s).2.machine.pc : Nat) : Int) =
            ((s.machine.pc : Int) + sext7 (fetch s.machine &&& 127) + 1) % 128 ∧
          (simulate_iter s).2.machine.pc < 128) ∧
      (s.machine.reg (regA (fetch s.machine)) ≠ s.machine.reg (regB (fetch s.machine)) →
        (simulate_iter s).2.machine.pc = (s.machine.pc + 1) % 65536 ∧
          (s.machine.pc + 1 < 65536 → (simulate_iter s).2.machine.pc = s.machine.pc + 1)) := by
  have hne : fetch s.machine &&& opMSB ≠ 0 ∧ fetch s.machine &&& opMSB ≠ opJal ∧
      fetch s.machine &&& opMSB ≠ opJ := by
    rw [hop]; decide
  have hpc : (simulate_iter s).2.machine.pc =
      (wrap_pc (twoRegInstr s.machine opJeq s.cache_size s.caches
        (s.cycle_counter + 1)).1).pc := by
    rw [simulate_iter_two s hne.1 hne.2.1 hne.2.2, hop]
  have himm := immVal_int (fetch s.machine)
  constructor
  · intro heq
    have hlt : (twoRegInstr s.machine opJeq s.cache_size s.caches
        (s.cycle_counter + 1)).1.pc < 128 := by
      rw [twoRegInstr_jeq, if_pos heq]
      split <;> omega
    rw [hpc, wrap_pc_pc_of_lt _ (by omega)]
    refine ⟨?_, hlt⟩
    rw [twoRegInstr_jeq, if_pos heq]
    split at himm <;> split <;> omega
  · intro hneq
    have hlt : (twoRegInstr s.machine opJeq s.cache_size s.caches
        (s.cycle_counter + 1)).1.pc = (s.machine.pc + 1) % 65536 := by
      rw [twoRegInstr_jeq, if_neg hneq]
    rw [hpc, wrap_pc_pc_of_lt _ (by omega), hlt]
    exact ⟨rfl, fun h => Nat.mod_eq_of_lt h⟩

/-- C15 witness: `jeq $0, $0, -2` at pc 0 lands on pc 127. -/
theorem jeq_wraparound_witness :
    fetch (initial (fun _ => 49278) 0 []).machine &&& opMSB = opJeq ∧
      (((simulate_iter (initial (fun _ => 49278) 0 [])).2.machine.pc : Nat) : Int) = 127 ∧
      (simulate_iter (initial (fun _ => 49278) 0 [])).2.machine.pc < 128 :=
  ⟨by decide,
    ((jeq_wraparound (initial (fun _ => 49278) 0 []) (by decide)).1 (by decide)).1,
    ((jeq_wraparound (initial (fun _ => 49278) 0 []) (by decide)).1 (by decide)).2⟩

/-! ## Register-format instructions -/

theorem simulate_iter_three (s : Sim) (h0 : fetch s.machine &&& opMSB = 0) :
    simulate_iter s =
      (false, { s with
        machine := wrap_pc (threeRegInstr s.machine)
        cycle_counter := s.cycle_counter + 1 }) := by
  unfold simulate_iter
  rw [if_pos h0]

theorem threeRegInstr_pc_valid (m : Machine)
    (hop : fetch m &&& opLSB ∈ [opAdd, opSub, opOr, opAnd, opSlt]) :
    (threeRegInstr m).pc = (m.pc + 1) % 65536 := by
  simp only [List.mem_cons, List.mem_singleton, List.not_mem_nil, or_false] at hop
  unfold threeRegInstr
  rcases hop with h | h | h | h | h
  · rw [if_pos h]
  · rw [if_neg (by rw [h]; decide), if_pos h]
  · rw [if_neg (by rw [h]; decide), if_neg (by rw [h]; decide), if_pos h]
  · rw [if_neg (by rw [h]; decide), if_neg (by rw [h]; decide), if_neg (by rw [h]; decide),
      if_pos h]
  · rw [if_neg (by rw [h]; decide), if_neg (by rw [h]; decide), if_neg (by rw [h]; decide),
      if_neg (by rw [h]; decide), if_pos h]

theorem threeRegInstr_malformed (m : Machine)
    (hop : fetch m &&& opLSB ∉ [opAdd, opSub, opOr, opAnd, opSlt, opJr]) :
    threeRegInstr m = { m with reg := write m.reg 0 0 } := by
  simp only [List.mem_cons, List.mem_singleton, List.not_mem_nil, or_false, not_or] at hop
  obtain ⟨h1, h2, h3, h4, h5, h6⟩ := hop
  unfold threeRegInstr
  rw [if_neg h1, if_neg h2, if_neg h3, if_neg h4, if_neg h5, if_neg h6]

/-- C16, as the code has it: for every instruction word in register format (top three
bits zero) whose low-nibble opcode is add, sub, or, and or slt (0 to 4), and every
machine state, the pass does not return and sets pc to `(pc + 1) mod 2^16`. -/
theorem register_format_advances_pc (s : Sim) (h0 : fetch s.machine &&& opMSB = 0)
    (hop : fetch s.machine &&& opLSB ∈ [opAdd, opSub, opOr, opAnd, opSlt]) :
    (simulate_iter s).1 = false ∧
      (simulate_iter s).2.machine.pc = (s.machine.pc + 1) % 65536 := by
  rw [simulate_iter_three s h0]
  refine ⟨rfl, ?_⟩
  show (wrap_pc (threeRegInstr s.machine)).pc = _
  rw [wrap_pc_pc_of_lt _ (by
    rw [threeRegInstr_pc_valid _ hop]; exact Nat.mod_lt _ (by decide))]
  exact threeRegInstr_pc_valid _ hop

/-- C16 witness: the word 16 (`add` with regDst 1) at pc 0. -/
theorem register_format_advances_pc_witness :
    fetch (initial (fun _ => 16) 0 []).machine &&& opMSB = 0 ∧
      fetch (initial (fun _ => 16) 0 []).machine &&& opLSB = opAdd ∧
      (simulate_iter (initial (fun _ => 16) 0 [])).2.machine.pc = 1 :=
  ⟨by decide, by decide,
    (register_format_advances_pc (initial (fun _ => 16) 0 []) (by decide) (by decide)).2⟩

/-- C16 refuted as stated: the word 5 is in register format (top three bits zero) and
its low nibble 5 is not jr (8); executed at pc 0 it leaves pc at 0, not at 1. -/
theorem undefined_opcode_keeps_pc :
    fetch (initial (fun _ => 5) 0 []).machine &&& opMSB = 0 ∧
      fetch (initial (fun _ => 5) 0 []).machine &&& opLSB = 5 ∧
      fetch (initial (fun _ => 5) 0 []).machine &&& opLSB ≠ opJr ∧
      (simulate_iter (initial (fun _ => 5) 0 [])).2.machine.pc = 0 ∧
      ¬ ((simulate_iter (initial (fun _ => 5) 0 [])).2.machine.pc =
        ((initial (fun _ => 5) 0 []).machine.pc + 1) % 65536) := by
  decide

/-! ## Instruction words matching no opcode -/

theorem malformed_iter (s : Sim) (hpc : s.machine.pc < 65536)
    (h0 : fetch s.machine &&& opMSB = 0)
    (hop : fetch s.machine &&& opLSB ∉ [opAdd, opSub, opOr, opAnd, opSlt, opJr]) :
    simulate_iter s =
      (false, { s with
        machine := { s.machine with reg := write s.machine.reg 0 0 }
        cycle_counter := s.cycle_counter + 1 }) := by
  rw [simulate_iter_three s h0, threeRegInstr_malformed _ hop,
    wrap_pc_of_lt { s.machine with reg := write s.machine.reg 0 0 } hpc]

theorem malformed_run (n : Nat) (s : Sim) (hpc : s.machine.pc < 65536)
    (h0 : fetch s.machine &&& opMSB = 0)
    (hop : fetch s.machine &&& opLSB ∉ [opAdd, opSub, opOr, opAnd, opSlt, opJr]) :
    (run_iters n s).1 = false ∧ (run_iters n s).2.machine.pc = s.machine.pc ∧
      (run_iters n s).2.machine.mem = s.machine.mem ∧ (run_iters n s).2.out = s.out ∧
      (run_iters n s).2.caches = s.caches := by
  induction n generalizing s with
  | zero => exact ⟨rfl, rfl, rfl, rfl, rfl⟩
  | succ n ih =>
    have hstep := malformed_iter s hpc h0 hop
    have hlt : s.machine.pc < REG_SIZE := hpc
    unfold run_iters
    rw [if_pos hlt, hstep]
    simp only [Bool.false_eq_true, if_false]
    exact ih _ hpc h0 hop

/-- C18, as the code has it: for every instruction word in register format whose low
four bits are none of add, sub, or, and, slt, jr (0, 1, 2, 3, 4, 8), executed at a
16-bit pc, no error is raised: the pass completes without returning, prints nothing,
leaves memory, pc and the caches as they were and changes no register except forcing
register 0 to 0; so after any number of passes `simulate` has not returned and is
still at the same pc. -/
theorem malformed_instruction_is_skipped (s : Sim) (hpc : s.machine.pc < 65536)
    (h0 : fetch s.machine &&& opMSB = 0)
    (hop : fetch s.machine &&& opLSB ∉ [opAdd, opSub, opOr, opAnd, opSlt, opJr]) :
    (simulate_iter s).1 = false ∧
      (simulate_iter s).2.machine = { s.machine with reg := write s.machine.reg 0 0 } ∧
      (simulate_iter s).2.out = s.out ∧ (simulate_iter s).2.caches = s.caches ∧
      (∀ n : Nat, (run_iters n s).1 = false ∧ (run_iters n s).2.machine.pc = s.machine.pc ∧
        (run_iters n s).2.machine.mem = s.machine.mem ∧ (run_iters n s).2.out = s.out) ∧
      (∀ fuel : Nat, simulate fuel s = none) := by
  rw [malformed_iter s hpc h0 hop]
  refine ⟨rfl, rfl, rfl, rfl, fun n => ?_, fun fuel => ?_⟩
  · obtain ⟨r1, r2, r3, r4, _⟩ := malformed_run n s hpc h0 hop
    exact ⟨r1, r2, r3, r4⟩
  · unfold simulate
    rw [(malformed_run fuel s hpc h0 hop).1]
    rfl

/-- C18 witness: the word 5 at pc 0 with one cache. -/
theorem malformed_instruction_is_skipped_witness :
    (simulate_iter (initial (fun _ => 5) 1 [Cache.new 4 1 1])).1 = false ∧
      (simulate_iter (initial (fun _ => 5) 1 [Cache.new 4 1 1])).2.out = [] ∧
      (run_iters 7 (initial (fun _ => 5) 1 [Cache.new 4 1 1])).2.machine.pc = 0 :=
  ⟨(malformed_instruction_is_skipped (initial (fun _ => 5) 1 [Cache.new 4 1 1]) (by decide)
      (by decide) (by decide)).1,
    (malformed_instruction_is_skipped (initial (fun _ => 5) 1 [Cache.new 4 1 1]) (by decide)
      (by decide) (by decide)).2.2.1,
    ((malformed_instruction_is_skipped (initial (fun _ => 5) 1 [Cache.new 4 1 1]) (by decide)
      (by decide) (by decide)).2.2.2.2.1 7).2.1⟩

/-- C18 refuted as stated: the word 9 is in register format and its low four bits, 9,
are no opcode; executing it at pc 0 is no failure: the pass completes like any other,
the loop goes on, nothing is printed, and three passes later `simulate` is at the same
pc and has not returned. -/
theorem malformed_word_raises_nothing :
    fetch (initial (fun _ => 9) 1 [Cache.new 4 1 1]).machine &&& opMSB = 0 ∧
      fetch (initial (fun _ => 9) 1 [Cache.new 4 1 1]).machine &&& opLSB = 9 ∧
      (simulate_iter (initial (fun _ => 9) 1 [Cache.new 4 1 1])).1 = false ∧
      (simulate_iter (initial (fun _ => 9) 1 [Cache.new 4 1 1])).2.machine.pc = 0 ∧
      (simulate_iter (initial (fun _ => 9) 1 [Cache.new 4 1 1])).2.out = [] ∧
      (run_iters 3 (initial (fun _ => 9) 1 [Cache.new 4 1 1])).1 = false ∧
      (run_iters 3 (initial (fun _ => 9) 1 [Cache.new 4 1 1])).2.machine.pc = 0 ∧
      (simulate 3 (initial (fun _ => 9) 1 [Cache.new 4 1 1])).isNone = true := by
  decide

/-! ## Probing the same address twice in one cycle -/

theorem refresh_refresh (cc tag : Int) (w : Int × Int) :
    Cache.refresh cc tag (Cache.refresh cc tag w) = Cache.refresh cc tag w := by
  unfold Cache.refresh
  split
  · next h => simp [h]
  · next h => simp [h]

/-- On an associative cache the row of the address, as `cache_lookup` leaves it, is a
fixed point of `update_lru` with the same cycle counter. -/
theorem Cache.lookup_row_refreshed (c : Cache) (hwf : c.WF) (cc a : Int) (ha : 0 ≤ a)
    (h1 : c.assoc ≠ 1) :
    ((c.cache_lookup cc a).2.row (c.get_row a)).map (Cache.refresh cc (c.tag_of a)) =
      (c.cache_lookup cc a).2.row (c.get_row a) := by
  have hi := Cache.get_row_lt_length c hwf a ha
  have hl := Cache.row_length c hwf _ hi
  by_cases hres : c.resident a = true
  · rw [Cache.lookup_hit c hwf cc a ha hres, if_neg h1, Cache.row_withRow c _ _ hi,
      List.map_map]
    apply List.map_congr_left
    intro w _
    exact refresh_refresh cc _ w
  · have hres' : c.resident a = false := by simpa using hres
    obtain ⟨k, _, he, _⟩ := Cache.lookup_miss_assoc c hwf cc a ha h1 hres'
    rw [he, Cache.row_withRow c _ _ hi]
    exact Cache.map_refresh_set cc _ _ k ((Cache.holds_false_iff c _ _ hl).mp hres')

theorem Cache.lookup_twice (c : Cache) (hwf : c.WF) (cc a : Int) (ha : 0 ≤ a) :
    (c.cache_lookup cc a).2.cache_lookup cc a = (true, (c.cache_lookup cc a).2) := by
  have hwf' := Cache.lookup_WF c hwf cc a ha
  have hres := Cache.lookup_resident c hwf cc a ha
  obtain ⟨_, p1, p2, p3⟩ := Cache.lookup_params c hwf cc a ha
  have hg : (c.cache_lookup cc a).2.get_row a = c.get_row a := by
    unfold Cache.get_row; rw [p2, p3]
  have ht : (c.cache_lookup cc a).2.tag_of a = c.tag_of a := by
    unfold Cache.tag_of; rw [p2, p3]
  apply Prod.ext
  · rw [Cache.cache_lookup_fst]; exact hres
  · show ((c.cache_lookup cc a).2.cache_lookup cc a).2 = (c.cache_lookup cc a).2
    rw [Cache.lookup_hit _ hwf' cc a ha hres]
    split
    · rfl
    · next h1 =>
      rw [hg, ht, Cache.lookup_row_refreshed c hwf cc a ha (by rw [← p1]; exact h1)]
      exact Cache.withRow_row _ _ (by
        have := Cache.get_row_lt_length _ hwf' a ha
        rw [hg] at this; exact this)

/-- C20: on a well-formed cache, with the cycle counter fixed, a second
`cache_lookup a` made right after a first one returns Hit and leaves the cache exactly
as the first left it; so after an L1 miss and an L2 miss, the L1 cache that
`l1_l2_cache` leaves is the one its first L1 probe produced: the backfill probe changes
nothing. -/
theorem same_cycle_probe_idempotent (c : Cache) (hwf : c.WF) (cc a : Int) (ha : 0 ≤ a) :
    ((c.cache_lookup cc a).2.cache_lookup cc a).1 = true ∧
      ((c.cache_lookup cc a).2.cache_lookup cc a).2 = (c.cache_lookup cc a).2 ∧
      (∀ (L2 : Cache) (addr : Nat) (pc : Int), a = (addr : Int) →
        c.resident a = false → L2.resident a = false →
          (l1_l2_cache c L2 cc addr opLw pc).1.1 = (c.cache_lookup cc a).2) := by
  have h := Cache.lookup_twice c hwf cc a ha
  refine ⟨by rw [h], by rw [h], ?_⟩
  intro L2 addr pc haddr h1 h2
  subst haddr
  rw [l1_l2_cache_load_miss c L2 cc addr opLw pc opLw_ne_opSw h1 h2]
  show ((c.cache_lookup cc addr).2.cache_lookup cc addr).2 = _
  rw [h]

/-- C20 witness: a cache of 2 rows of 2 ways after probes of 0, 2, 4; address 6 at
cycle 9. -/
theorem same_cycle_probe_idempotent_witness :
    ((((Cache.new 4 2 1).probes [(1, 0), (2, 2), (3, 4)]).cache_lookup 9 6).2.cache_lookup
        9 6).1 = true ∧
      ((((Cache.new 4 2 1).probes [(1, 0), (2, 2), (3, 4)]).cache_lookup 9 6).2.cache_lookup
        9 6).2 = (((Cache.new 4 2 1).probes [(1, 0), (2, 2), (3, 4)]).cache_lookup 9 6).2 :=
  ⟨(same_cycle_probe_idempotent ((Cache.new 4 2 1).probes [(1, 0), (2, 2), (3, 4)])
      (by decide) 9 6 (by decide)).1,
    (same_cycle_probe_idempotent ((Cache.new 4 2 1).probes [(1, 0), (2, 2), (3, 4)])
      (by decide) 9 6 (by decide)).2.1⟩

/-! ## Occupied tags of a row -/

/-- A miss rewrites one way `k` of the row of the address with the tag of the address;
when the row has an empty way, `k` is an empty way. -/
theorem Cache.lookup_miss_row (c : Cache) (hwf : c.WF) (cc a : Int) (ha : 0 ≤ a)
    (hres : c.resident a = false) :
    ∃ (k : Nat) (st : Int), k < (c.row (c.get_row a)).length ∧
      (c.cache_lookup cc a).2 =
        c.withRow (c.get_row a) ((c.row (c.get_row a)).set k (st, c.tag_of a)) ∧
      ((∃ w ∈ c.row (c.get_row a), w.2 = -1) →
        ((c.row (c.get_row a)).getD k (0, -1)).2 = -1) := by
  have hi := Cache.get_row_lt_length c hwf a ha
  have hl := Cache.row_length c hwf _ hi
  by_cases h1 : c.assoc = 1
  · have hl1 : (c.row (c.get_row a)).length = 1 := by rw [hl, h1]; rfl
    refine ⟨0, 0, by omega, ?_, ?_⟩
    · rw [Cache.lookup_miss_direct c hwf cc a ha h1 hres]
      congr 1
      match hr : c.row (c.get_row a), hl1 with
      | [w], _ => rfl
    · rintro ⟨w, hw, hwe⟩
      match hr : c.row (c.get_row a), hl1 with
      | [v], _ =>
        rw [hr] at hw
        simp only [List.mem_singleton] at hw
        subst hw
        simpa using hwe
  · obtain ⟨k, hk, he, hlast, _⟩ := Cache.lookup_miss_assoc c hwf cc a ha h1 hres
    refine ⟨k, cc, by omega, he, ?_⟩
    rintro ⟨w, hw, hwe⟩
    obtain ⟨j, hj, rfl⟩ := List.getElem_of_mem hw
    have hway : (c.way (c.get_row a) (j : Int)).2 = -1 := by
      rw [Cache.way_eq, Int.toNat_natCast, List.getD_eq_getElem _ _ hj]; exact hwe
    have := (hlast ⟨j, by omega, hway⟩).1
    rw [Cache.way_eq, Int.toNat_natCast] at this
    exact this

theorem occupied_tags_append (l1 l2 : List (Int × Int)) :
    occupied_tags (l1 ++ l2) = occupied_tags l1 ++ occupied_tags l2 := by
  simp [occupied_tags]

theorem mem_occupied_tags (r : List (Int × Int)) (t : Int) :
    t ∈ occupied_tags r ↔ t ≠ -1 ∧ ∃ w ∈ r, w.2 = t := by
  unfold occupied_tags
  simp only [List.mem_filter, List.mem_map, decide_eq_true_eq]
  constructor
  · rintro ⟨⟨w, hw, rfl⟩, ht⟩
    exact ⟨ht, w, hw, rfl⟩
  · rintro ⟨ht, w, hw, rfl⟩
    exact ⟨⟨w, hw, rfl⟩, ht⟩

theorem row_split (r : List (Int × Int)) (k : Nat) (hk : k < r.length) :
    r = r.take k ++ r.getD k (0, -1) :: r.drop (k + 1) := by
  rw [List.getD_eq_getElem _ _ hk, ← List.drop_eq_getElem_cons hk, List.take_append_drop]

theorem row_set_split (r : List (Int × Int)) (k : Nat) (w : Int × Int) (hk : k < r.length) :
    r.set k w = r.take k ++ w :: r.drop (k + 1) := by
  rw [List.set_eq_take_append_cons_drop, if_pos hk]

theorem occupied_tags_one (w : Int × Int) :
    occupied_tags [w] = if w.2 ≠ -1 then [w.2] else [] := by
  unfold occupied_tags
  by_cases h : w.2 = -1 <;> simp [h]

theorem mem_take_drop (r : List (Int × Int)) (k : Nat) (t : Int) :
    (t ∈ occupied_tags (r.take k) → ∃ w ∈ r, w.2 = t) ∧
      (t ∈ occupied_tags (r.drop (k + 1)) → ∃ w ∈ r, w.2 = t) := by
  constructor
  · intro h
    obtain ⟨_, w, hw, ht⟩ := (mem_occupied_tags _ _).mp h
    exact ⟨w, List.mem_of_mem_take hw, ht⟩
  · intro h
    obtain ⟨_, w, hw, ht⟩ := (mem_occupied_tags _ _).mp h
    exact ⟨w, List.mem_of_mem_drop hw, ht⟩

/-- Writing a tag that no way of the row holds keeps the occupied tags distinct. -/
theorem occupied_install_nodup (r : List (Int × Int)) (k : Nat) (st tag : Int)
    (hk : k < r.length) (hnd : (occupied_tags r).Nodup) (hnew : ∀ w ∈ r, w.2 ≠ tag) :
    (occupied_tags (r.set k (st, tag))).Nodup := by
  have hsplit := row_split r k hk
  rw [hsplit, occupied_tags_append, List.nodup_append] at hnd
  obtain ⟨hA, hXB, hdisj⟩ := hnd
  have hB : (occupied_tags (r.drop (k + 1))).Nodup := by
    rw [show r.getD k (0, -1) :: r.drop (k + 1) = [r.getD k (0, -1)] ++ r.drop (k + 1) from rfl,
      occupied_tags_append, List.nodup_append] at hXB
    exact hXB.2.1
  have hAB : (occupied_tags (r.take k)).Disjoint (occupied_tags (r.drop (k + 1))) := by
    intro t h1 h2
    apply hdisj h1
    rw [show r.getD k (0, -1) :: r.drop (k + 1) = [r.getD k (0, -1)] ++ r.drop (k + 1) from rfl,
      occupied_tags_append]
    exact List.mem_append_right _ h2
  have hnA : tag ∉ occupied_tags (r.take k) := fun h => by
    obtain ⟨w, hw, ht⟩ := (mem_take_drop r k tag).1 h
    exact hnew w hw ht
  have hnB : tag ∉ occupied_tags (r.drop (k + 1)) := fun h => by
    obtain ⟨w, hw, ht⟩ := (mem_take_drop r k tag).2 h
    exact hnew w hw ht
  rw [row_set_split r k _ hk, occupied_tags_append,
    show (st, tag) :: r.drop (k + 1) = [(st, tag)] ++ r.drop (k + 1) from rfl,
    occupied_tags_append, occupied_tags_one]
  rw [List.nodup_append]
  refine ⟨hA, ?_, ?_⟩
  · split
    · rw [List.singleton_append, List.nodup_cons]
      exact ⟨hnB, hB⟩
    · simpa using hB
  · intro t h1 h2
    rcases List.mem_append.mp h2 with h | h
    · split at h
      · simp only [List.mem_singleton] at h
        subst h
        exact hnA h1
      · simp at h
    · exact hAB h1 h

/-- Writing a tag into an empty way adds this tag to the occupied tags and removes
none. -/
theorem mem_occupied_install_empty (r : List (Int × Int)) (k : Nat) (st tag : Int)
    (hk : k < r.length) (hempty : (r.getD k (0, -1)).2 = -1) (htag : tag ≠ -1) (t : Int) :
    t ∈ occupied_tags (r.set k (st, tag)) ↔ t ∈ occupied_tags r ∨ t = tag := by
  have hsplit := row_split r k hk
  have h1 : occupied_tags r =
      occupied_tags (r.take k) ++ occupied_tags (r.drop (k + 1)) := by
    conv_lhs => rw [hsplit]
    rw [occupied_tags_append,
      show r.getD k (0, -1) :: r.drop (k + 1) = [r.getD k (0, -1)] ++ r.drop (k + 1) from rfl,
      occupied_tags_append, occupied_tags_one, if_neg (fun h => h hempty), List.nil_append]
  have h2 : occupied_tags (r.set k (st, tag)) =
      occupied_tags (r.take k) ++ tag :: occupied_tags (r.drop (k + 1)) := by
    rw [row_set_split r k _ hk, occupied_tags_append,
      show (st, tag) :: r.drop (k + 1) = [(st, tag)] ++ r.drop (k + 1) from rfl,
      occupied_tags_append, occupied_tags_one]
    simp [htag]
  rw [h1, h2]
  simp only [List.mem_append, List.mem_cons]
  tauto

/-! ## Tag uniqueness -/

theorem occupied_tags_congr (r r' : List (Int × Int)) (h : r.map Prod.snd = r'.map Prod.snd) :
    occupied_tags r = occupied_tags r' := by
  unfold occupied_tags
  rw [h]

theorem Cache.row_mem (c : Cache) (index : Int) (h : index.toNat < c.cache.length) :
    c.row index ∈ c.cache := by
  unfold Cache.row
  rw [List.getD_eq_getElem _ _ h]
  exact List.getElem_mem h

theorem Cache.new_unique (size assoc blocksize : Int) :
    (Cache.new size assoc blocksize).UniqueTags := by
  intro r hr
  simp only [Cache.new] at hr
  rw [List.eq_of_mem_replicate hr]
  have : occupied_tags (List.replicate assoc.toNat ((0 : Int), (-1 : Int))) = [] := by
    rw [List.eq_nil_iff_forall_not_mem]
    intro t ht
    obtain ⟨hne, w, hw, hwt⟩ := (mem_occupied_tags _ _).mp ht
    rw [List.eq_of_mem_replicate hw] at hwt
    exact hne hwt.symm
  rw [this]
  exact List.nodup_nil

/-- A `cache_lookup` keeps the occupied tags of every row distinct. -/
theorem Cache.lookup_unique (c : Cache) (hwf : c.WF) (cc a : Int) (ha : 0 ≤ a)
    (hu : c.UniqueTags) : (c.cache_lookup cc a).2.UniqueTags := by
  have hi := Cache.get_row_lt_length c hwf a ha
  have hl := Cache.row_length c hwf _ hi
  have hrow := hu _ (Cache.row_mem c _ hi)
  by_cases hres : c.resident a = true
  · obtain ⟨r, _, he, _, _, htags⟩ := Cache.lookup_shape c hwf cc a ha
    rw [he]
    intro x hx
    rcases List.mem_or_eq_of_mem_set hx with h | h
    · exact hu x h
    · rw [h, occupied_tags_congr _ _ (htags hres)]
      exact hrow
  · have hres' : c.resident a = false := by simpa using hres
    obtain ⟨k, st, hk, he, _⟩ := Cache.lookup_miss_row c hwf cc a ha hres'
    rw [he]
    intro x hx
    rcases List.mem_or_eq_of_mem_set hx with h | h
    · exact hu x h
    · rw [h]
      exact occupied_install_nodup _ k st _ hk hrow
        ((Cache.holds_false_iff c _ _ hl).mp hres')

theorem Cache.probes_unique (c : Cache) (hwf : c.WF) (hu : c.UniqueTags)
    (ps : List (Int × Int)) (hps : ∀ p ∈ ps, 0 ≤ p.2) : (c.probes ps).UniqueTags := by
  induction ps generalizing c with
  | nil => exact hu
  | cons p ps ih =>
    have hp := hps p (List.mem_cons_self _ _)
    rw [Cache.probes_cons]
    exact ih _ (Cache.lookup_WF c hwf p.1 p.2 hp) (Cache.lookup_unique c hwf p.1 p.2 hp hu)
      (fun q hq => hps q (List.mem_cons_of_mem _ hq))

/-- C19: in every state reached from a freshly constructed well-formed cache
(`num_rows`, `assoc`, `blocksize` at least 1) by any sequence of `cache_lookup` calls on
non-negative addresses, the non-empty tags (tags other than `-1`) of each row are
pairwise distinct, the cache still has `num_rows` rows, each row still has `assoc`
ways, and `num_rows` and `assoc` are the constructed ones. -/
theorem tag_uniqueness (size assoc blocksize : Int)
    (hwf : (Cache.new size assoc blocksize).WF) (ps : List (Int × Int))
    (hps : ∀ p ∈ ps, 0 ≤ p.2) :
    (∀ r ∈ ((Cache.new size assoc blocksize).probes ps).cache,
        ((r.map Prod.snd).filter (fun t => decide (t ≠ -1))).Nodup) ∧
      ((Cache.new size assoc blocksize).probes ps).cache.length =
        (Cache.new size assoc blocksize).cache.length ∧
      ((Cache.new size assoc blocksize).probes ps).cache.length =
        (Cache.new size assoc blocksize).num_rows.toNat ∧
      (∀ r ∈ ((Cache.new size assoc blocksize).probes ps).cache, r.length = assoc.toNat) ∧
      ((Cache.new size assoc blocksize).probes ps).num_rows =
        (Cache.new size assoc blocksize).num_rows ∧
      ((Cache.new size assoc blocksize).probes ps).assoc = assoc := by
  obtain ⟨w, h1, _, h3⟩ := Cache.probes_WF _ hwf ps hps
  obtain ⟨_, _, _, w4, w5⟩ := w
  refine ⟨Cache.probes_unique _ hwf (Cache.new_unique size assoc blocksize) ps hps,
    ?_, ?_, ?_, h3, h1⟩
  · rw [w4, h3, hwf.2.2.2.1]
  · rw [w4, h3]
  · intro r hr
    rw [w5 r hr, h1]
    rfl

/-- C19 witness: one row of 3 ways after probes of 0, 1, 2, 3, 1, 4. -/
theorem tag_uniqueness_witness :
    (∀ r ∈ ((Cache.new 3 3 1).probes [(1, 0), (2, 1), (3, 2), (4, 3), (5, 1), (6, 4)]).cache,
        ((r.map Prod.snd).filter (fun t => decide (t ≠ -1))).Nodup) ∧
      ((Cache.new 3 3 1).probes [(1, 0), (2, 1), (3, 2), (4, 3), (5, 1), (6, 4)]).cache.length
        = 1 :=
  ⟨(tag_uniqueness 3 3 1 (by decide)
      [(1, 0), (2, 1), (3, 2), (4, 3), (5, 1), (6, 4)] (by decide)).1,
    (tag_uniqueness 3 3 1 (by decide)
      [(1, 0), (2, 1), (3, 2), (4, 3), (5, 1), (6, 4)] (by decide)).2.1⟩

/-! ## Filling the empty ways of a row -/

theorem dedup_length_mono (A B : List Int) (h : ∀ t ∈ A, t ∈ B) :
    A.dedup.length ≤ B.dedup.length := by
  rw [← List.card_toFinset, ← List.card_toFinset]
  apply Finset.card_le_card
  intro t ht
  rw [List.mem_toFinset] at ht ⊢
  exact h t ht

theorem dedup_length_snoc (T : List Int) (t : Int) (h : t ∉ T) :
    (T ++ [t]).dedup.length = T.dedup.length + 1 := by
  rw [← List.card_toFinset, ← List.card_toFinset]
  have : (T ++ [t]).toFinset = insert t T.toFinset := by
    ext x
    simp only [List.mem_toFinset, List.mem_append, List.mem_singleton, Finset.mem_insert]
    tauto
  rw [this, Finset.card_insert_of_not_mem (by rw [List.mem_toFinset]; exact h)]

theorem nodup_length_eq_dedup (occ T : List Int) (hnd : occ.Nodup)
    (hmem : ∀ t, t ∈ occ ↔ t ∈ T) : occ.length = T.dedup.length := by
  rw [← List.card_toFinset, ← List.toFinset_card_of_nodup hnd]
  congr 1
  ext x
  rw [List.mem_toFinset, List.mem_toFinset]
  exact hmem x

/-- A row whose occupied tags are fewer than its ways has an empty way. -/
theorem exists_empty_way (r : List (Int × Int)) (h : (occupied_tags r).length < r.length) :
    ∃ w ∈ r, w.2 = -1 := by
  by_contra hno
  push_neg at hno
  have : occupied_tags r = r.map Prod.snd := by
    unfold occupied_tags
    rw [List.filter_eq_self]
    intro t ht
    obtain ⟨w, hw, rfl⟩ := List.mem_map.mp ht
    simpa using hno w hw
  rw [this, List.length_map] at h
  exact lt_irrefl _ h

theorem Cache.new_occupied_nil (size assoc blocksize : Int) (r0 : Int) :
    occupied_tags ((Cache.new size assoc blocksize).row r0) = [] := by
  rw [List.eq_nil_iff_forall_not_mem]
  intro t ht
  obtain ⟨hne, w, hw, hwt⟩ := (mem_occupied_tags _ _).mp ht
  unfold Cache.row at hw
  rw [List.getD_eq_getElem?_getD] at hw
  cases hget : (Cache.new size assoc blocksize).cache[r0.toNat]? with
  | none => rw [hget] at hw; simp at hw
  | some x =>
    rw [hget] at hw
    have hx : x ∈ (Cache.new size assoc blocksize).cache :=
      List.mem_iff_getElem?.mpr ⟨_, hget⟩
    simp only [Cache.new] at hx
    rw [List.eq_of_mem_replicate hx] at hw
    simp only [Option.getD_some] at hw
    rw [List.eq_of_mem_replicate hw] at hwt
    exact hne hwt.symm

/-- While the probes of one row involve at most `assoc` distinct tags, the occupied tags
of the row are distinct and are exactly the tags probed so far. -/
theorem Cache.fill_invariant (c0 : Cache) (hwf : c0.WF) (r0 : Int)
    (hfresh : occupied_tags (c0.row r0) = []) (xs : List (Int × Int))
    (hxs : ∀ p ∈ xs, 0 ≤ p.2 ∧ c0.get_row p.2 = r0)
    (hk : ((xs.map (fun p => c0.tag_of p.2)).dedup).length ≤ c0.assoc.toNat) :
    (occupied_tags ((c0.probes xs).row r0)).Nodup ∧
      ∀ t, t ∈ occupied_tags ((c0.probes xs).row r0) ↔
        t ∈ xs.map (fun p => c0.tag_of p.2) := by
  induction xs using List.reverseRecOn with
  | nil =>
    have e : c0.probes [] = c0 := rfl
    rw [e, hfresh]
    exact ⟨List.nodup_nil, fun t => by simp⟩
  | append_singleton xs p ih =>
    have hxs' : ∀ q ∈ xs, 0 ≤ q.2 ∧ c0.get_row q.2 = r0 :=
      fun q hq => hxs q (List.mem_append_left _ hq)
    obtain ⟨hp0, hprow⟩ := hxs p (List.mem_append_right _ (List.mem_singleton_self p))
    have hmap : (xs ++ [p]).map (fun p => c0.tag_of p.2) =
        xs.map (fun p => c0.tag_of p.2) ++ [c0.tag_of p.2] := by simp
    rw [hmap] at hk
    have hk' : ((xs.map (fun p => c0.tag_of p.2)).dedup).length ≤ c0.assoc.toNat :=
      le_trans (dedup_length_mono _ _ (fun t ht => List.mem_append_left _ ht)) hk
    obtain ⟨hnd, hmem⟩ := ih hxs' hk'
    obtain ⟨hwf', g1, g2, g3⟩ := Cache.probes_WF c0 hwf xs (fun q hq => (hxs' q hq).1)
    have hg : (c0.probes xs).get_row p.2 = r0 := by
      rw [← hprow]; unfold Cache.get_row; rw [g2, g3]
    have ht : (c0.probes xs).tag_of p.2 = c0.tag_of p.2 := by
      unfold Cache.tag_of; rw [g2, g3]
    have ht0 : c0.tag_of p.2 ≠ -1 := by
      have := (Cache.tag_of_nonneg c0 hwf p.2 hp0).2; omega
    have hi := Cache.get_row_lt_length _ hwf' p.2 hp0
    have hl := Cache.row_length _ hwf' _ hi
    rw [hg] at hi hl
    rw [Cache.probes_concat, hmap]
    by_cases hres : (c0.probes xs).resident p.2 = true
    · obtain ⟨r, _, he, _, _, htags⟩ := Cache.lookup_shape _ hwf' p.1 p.2 hp0
      rw [hg] at he htags
      rw [he, Cache.row_withRow _ _ _ hi, occupied_tags_congr _ _ (htags hres)]
      refine ⟨hnd, fun t => ?_⟩
      rw [hmem t, List.mem_append, List.mem_singleton]
      constructor
      · exact Or.inl
      · rintro (h | h)
        · exact h
        · rw [h, ← hmem]
          unfold Cache.resident at hres
          rw [hg, ht, Cache.holds_iff _ _ _ hl] at hres
          exact (mem_occupied_tags _ _).mpr ⟨ht0, hres⟩
    · have hres' : (c0.probes xs).resident p.2 = false := by simpa using hres
      obtain ⟨k, st, hk1, he, hempty⟩ := Cache.lookup_miss_row _ hwf' p.1 p.2 hp0 hres'
      rw [hg, ht] at he
      rw [hg] at hempty hk1
      have hnew : ∀ w ∈ (c0.probes xs).row r0, w.2 ≠ c0.tag_of p.2 := by
        unfold Cache.resident at hres'
        rw [hg, ht, Cache.holds_false_iff _ _ _ hl] at hres'
        exact hres'
      have hnotin : c0.tag_of p.2 ∉ xs.map (fun p => c0.tag_of p.2) := by
        rw [← hmem]
        intro h
        obtain ⟨_, w, hw, hwt⟩ := (mem_occupied_tags _ _).mp h
        exact hnew w hw hwt
      have hlen : (occupied_tags ((c0.probes xs).row r0)).length <
          ((c0.probes xs).row r0).length := by
        rw [nodup_length_eq_dedup _ _ hnd hmem, hl, g1]
        rw [dedup_length_snoc _ _ hnotin] at hk
        omega
      have hk_empty := hempty (exists_empty_way _ hlen)
      rw [he, Cache.row_withRow _ _ _ hi]
      refine ⟨occupied_install_nodup _ k st _ hk1 hnd hnew, fun t => ?_⟩
      rw [mem_occupied_install_empty _ k st _ hk1 hk_empty ht0, hmem t, List.mem_append,
        List.mem_singleton]

/-- C11: in a freshly constructed well-formed cache of associativity `n`, for a sequence
of probes on non-negative addresses that all map to one row and involve at most `n`
different tags: each probe returns Miss when its tag has not been probed before in the
sequence and Hit when it has (so the first access of each block misses, no block is
evicted and every later probe of it hits); after the whole sequence every probed block
is resident. With size 4, assoc 2, blocksize 1 the loads 0, 2, 0 print MISS, MISS,
HIT. -/
theorem fill_empty_ways (size assoc blocksize : Int)
    (hwf : (Cache.new size assoc blocksize).WF) (ps : List (Int × Int)) (r0 : Int)
    (hps : ∀ p ∈ ps, 0 ≤ p.2 ∧ (Cache.new size assoc blocksize).get_row p.2 = r0)
    (hk : ((ps.map (fun p => (Cache.new size assoc blocksize).tag_of p.2)).dedup).length
      ≤ assoc.toNat) :
    (∀ (xs : List (Int × Int)) (p : Int × Int) (ys : List (Int × Int)),
        ps = xs ++ p :: ys →
          (((Cache.new size assoc blocksize).probes xs).cache_lookup p.1 p.2).1 =
            decide ((Cache.new size assoc blocksize).tag_of p.2 ∈
              xs.map (fun q => (Cache.new size assoc blocksize).tag_of q.2))) ∧
      (∀ p ∈ ps, ∀ cc : Int,
        (((Cache.new size assoc blocksize).probes ps).cache_lookup cc p.2).1 = true) ∧
      (run_l1 (Cache.new 4 2 1) 0 [(0, opLw, 0), (2, opLw, 1), (0, opLw, 2)]).2.map
        LogEntry.status = ["MISS", "MISS", "HIT"] := by
  have key : ∀ (xs : List (Int × Int)) (p : Int × Int),
      (∀ q ∈ xs, q ∈ ps) → p ∈ ps →
        ((Cache.new size assoc blocksize).probes xs).resident p.2 =
          decide ((Cache.new size assoc blocksize).tag_of p.2 ∈
            xs.map (fun q => (Cache.new size assoc blocksize).tag_of q.2)) := by
    intro xs p hsub hp
    have hxs : ∀ q ∈ xs, 0 ≤ q.2 ∧ (Cache.new size assoc blocksize).get_row q.2 = r0 :=
      fun q hq => hps q (hsub q hq)
    have hkx : ((xs.map (fun p => (Cache.new size assoc blocksize).tag_of p.2)).dedup).length
        ≤ (Cache.new size assoc blocksize).assoc.toNat := by
      refine le_trans (dedup_length_mono _ _ ?_) hk
      intro t ht
      obtain ⟨q, hq, rfl⟩ := List.mem_map.mp ht
      exact List.mem_map.mpr ⟨q, hsub q hq, rfl⟩
    obtain ⟨_, hmem⟩ := Cache.fill_invariant _ hwf r0
      (Cache.new_occupied_nil size assoc blocksize r0) xs hxs hkx
    obtain ⟨hp0, hprow⟩ := hps p hp
    obtain ⟨hwf', g1, g2, g3⟩ := Cache.probes_WF _ hwf xs (fun q hq => (hxs q hq).1)
    have hg : ((Cache.new size assoc blocksize).probes xs).get_row p.2 = r0 := by
      rw [← hprow]; unfold Cache.get_row; rw [g2, g3]
    have ht : ((Cache.new size assoc blocksize).probes xs).tag_of p.2 =
        (Cache.new size assoc blocksize).tag_of p.2 := by
      unfold Cache.tag_of; rw [g2, g3]
    have ht0 : (Cache.new size assoc blocksize).tag_of p.2 ≠ -1 := by
      have := (Cache.tag_of_nonneg _ hwf p.2 hp0).2; omega
    have hi := Cache.get_row_lt_length _ hwf' p.2 hp0
    have hl := Cache.row_length _ hwf' _ hi
    rw [hg] at hl
    rw [Bool.eq_iff_iff, decide_eq_true_eq, ← hmem, mem_occupied_tags]
    unfold Cache.resident
    rw [hg, ht, Cache.holds_iff _ _ _ hl]
    exact ⟨fun h => ⟨ht0, h⟩, fun h => h.2⟩
  refine ⟨?_, ?_, by decide⟩
  · intro xs p ys hsplit
    rw [Cache.cache_lookup_fst]
    apply key
    · intro q hq; rw [hsplit]; exact List.mem_append_left _ hq
    · rw [hsplit]; exact List.mem_append_right _ (List.mem_cons_self _ _)
  · intro p hp cc
    rw [Cache.cache_lookup_fst, key ps p (fun q hq => hq) hp, decide_eq_true_eq]
    exact List.mem_map.mpr ⟨p, hp, rfl⟩

/-- C11 witness: size 4, assoc 2, blocksize 1: the probes 0, 2, 0 of row 0 carry the
tags 0, 1, 0; the third probe hits. -/
theorem fill_empty_ways_witness :
    (((Cache.new 4 2 1).probes []).cache_lookup 1 0).1 = false ∧
      (((Cache.new 4 2 1).probes [(1, 0)]).cache_lookup 2 2).1 = false ∧
      (((Cache.new 4 2 1).probes [(1, 0), (2, 2)]).cache_lookup 3 0).1 = true ∧
      (run_l1 (Cache.new 4 2 1) 0 [(0, opLw, 0), (2, opLw, 1), (0, opLw, 2)]).2.map
        LogEntry.status = ["MISS", "MISS", "HIT"] :=
  ⟨(fill_empty_ways 4 2 1 (by decide) [(1, 0), (2, 2), (3, 0)] 0 (by decide) (by decide)).1
      [] (1, 0) [(2, 2), (3, 0)] rfl,
    (fill_empty_ways 4 2 1 (by decide) [(1, 0), (2, 2), (3, 0)] 0 (by decide) (by decide)).1
      [(1, 0)] (2, 2) [(3, 0)] rfl,
    (fill_empty_ways 4 2 1 (by decide) [(1, 0), (2, 2), (3, 0)] 0 (by decide) (by decide)).1
      [(1, 0), (2, 2)] (3, 0) [] rfl,
    (fill_empty_ways 4 2 1 (by decide) [(1, 0), (2, 2), (3, 0)] 0 (by decide)
      (by decide)).2.2⟩

/-! ## LRU retention -/

/-- A miss on an associative cache, on the row as a list: way `k` is rewritten with
`(cycle_counter, tag)`; `k` is empty when the row has an empty way, and has the least
lru value of the row when the row is full. -/
theorem Cache.lookup_miss_assoc_row (c : Cache) (hwf : c.WF) (cc a : Int) (ha : 0 ≤ a)
    (h1 : c.assoc ≠ 1) (hres : c.resident a = false) :
    ∃ k : Nat, k < (c.row (c.get_row a)).length ∧
      (c.cache_lookup cc a).2 =
        c.withRow (c.get_row a) ((c.row (c.get_row a)).set k (cc, c.tag_of a)) ∧
      ((∃ w ∈ c.row (c.get_row a), w.2 = -1) →
        ((c.row (c.get_row a)).getD k (0, -1)).2 = -1) ∧
      ((∀ w ∈ c.row (c.get_row a), w.2 ≠ -1) →
        ∀ w ∈ c.row (c.get_row a), ((c.row (c.get_row a)).getD k (0, -1)).1 ≤ w.1) := by
  have hi := Cache.get_row_lt_length c hwf a ha
  have hl := Cache.row_length c hwf _ hi
  obtain ⟨k, hk, he, hlast, hlru⟩ := Cache.lookup_miss_assoc c hwf cc a ha h1 hres
  have hway : ∀ j : Nat, c.way (c.get_row a) (j : Int) =
      (c.row (c.get_row a)).getD j (0, -1) := by
    intro j; rw [Cache.way_eq, Int.toNat_natCast]
  refine ⟨k, by omega, he, ?_, ?_⟩
  · rintro ⟨w, hw, hwe⟩
    obtain ⟨j, hj, rfl⟩ := List.getElem_of_mem hw
    have h := (hlast ⟨j, by omega, by
      rw [hway, List.getD_eq_getElem _ _ hj]; exact hwe⟩).1
    rw [hway] at h
    exact h
  · intro hfull w hw
    obtain ⟨j, hj, rfl⟩ := List.getElem_of_mem hw
    have hall : ∀ i : Nat, i < c.assoc.toNat → (c.way (c.get_row a) (i : Int)).2 ≠ -1 := by
      intro i hi'
      rw [hway, List.getD_eq_getElem _ _ (by omega)]
      exact hfull _ (List.getElem_mem _)
    have h := (hlru hall).1 j (by omega)
    rw [hway, hway, List.getD_eq_getElem _ _ hj] at h
    exact h

/-- After a `cache_lookup` on an associative cache, every way of the row of the address
is either the refreshed or installed `(cycle_counter, tag)`, or a way that was there
before with another tag. -/
theorem Cache.lookup_row_mem (c : Cache) (hwf : c.WF) (cc a : Int) (ha : 0 ≤ a)
    (h1 : c.assoc ≠ 1) :
    ∀ w ∈ (c.cache_lookup cc a).2.row (c.get_row a),
      w = (cc, c.tag_of a) ∨ (w ∈ c.row (c.get_row a) ∧ w.2 ≠ c.tag_of a) := by
  have hi := Cache.get_row_lt_length c hwf a ha
  have hl := Cache.row_length c hwf _ hi
  intro w hw
  by_cases hres : c.resident a = true
  · rw [Cache.lookup_hit c hwf cc a ha hres, if_neg h1, Cache.row_withRow c _ _ hi] at hw
    obtain ⟨v, hv, rfl⟩ := List.mem_map.mp hw
    unfold Cache.refresh
    split
    · next h => left; rw [h]
    · next h => right; exact ⟨hv, fun h' => h h'.symm⟩
  · have hres' : c.resident a = false := by simpa using hres
    obtain ⟨k, _, he, _, _⟩ := Cache.lookup_miss_assoc_row c hwf cc a ha h1 hres'
    rw [he, Cache.row_withRow c _ _ hi] at hw
    rcases List.mem_or_eq_of_mem_set hw with h | h
    · right
      exact ⟨h, (Cache.holds_false_iff c _ _ hl).mp hres' w h⟩
    · left; exact h

theorem Cache.probes_append (c : Cache) (xs ys : List (Int × Int)) :
    c.probes (xs ++ ys) = (c.probes xs).probes ys := by
  simp [Cache.probes, List.foldl_append]

theorem Cache.conflicting_tags_cons (c : Cache) (b : Int) (p : Int × Int)
    (ps : List (Int × Int)) :
    c.conflicting_tags b (p :: ps) =
      if c.get_row p.2 = c.get_row b ∧ c.tag_of p.2 ≠ c.tag_of b then
        c.tag_of p.2 :: c.conflicting_tags b ps
      else c.conflicting_tags b ps := by
  unfold Cache.conflicting_tags
  by_cases hr : c.get_row p.2 = c.get_row b
  · by_cases ht : c.tag_of p.2 = c.tag_of b
    · simp [hr, ht]
    · simp [hr, ht]
  · simp [hr]

theorem Cache.conflicting_tags_geometry (c c' : Cache) (b : Int) (ps : List (Int × Int))
    (h2 : c'.blocksize = c.blocksize) (h3 : c'.num_rows = c.num_rows) :
    c'.conflicting_tags b ps = c.conflicting_tags b ps := by
  unfold Cache.conflicting_tags Cache.get_row Cache.tag_of
  rw [h2, h3]

/-- Probes whose cycle counter values are all below `B` leave only lru values below `B`
in the occupied ways of a row. -/
theorem Cache.stamps_below (c : Cache) (hwf : c.WF) (h1 : c.assoc ≠ 1) (r0 B : Int)
    (hr0 : 0 ≤ r0) (h0 : ∀ w ∈ c.row r0, w.2 ≠ -1 → w.1 < B) (ps : List (Int × Int))
    (hps : ∀ p ∈ ps, 0 ≤ p.2 ∧ p.1 < B) :
    ∀ w ∈ (c.probes ps).row r0, w.2 ≠ -1 → w.1 < B := by
  induction ps generalizing c with
  | nil => exact h0
  | cons p ps ih =>
    obtain ⟨hp0, hpB⟩ := hps p (List.mem_cons_self _ _)
    obtain ⟨_, g1, _, _⟩ := Cache.lookup_params c hwf p.1 p.2 hp0
    rw [Cache.probes_cons]
    apply ih _ (Cache.lookup_WF c hwf p.1 p.2 hp0) (by rw [g1]; exact h1) _
      (fun q hq => hps q (List.mem_cons_of_mem _ hq))
    intro w hw hne
    by_cases hrow : c.get_row p.2 = r0
    · rw [← hrow] at hw
      rcases Cache.lookup_row_mem c hwf p.1 p.2 hp0 h1 w hw with h | h
      · rw [h]; exact hpB
      · rw [hrow] at h; exact h0 w h.1 hne
    · rw [Cache.lookup_row_other c hwf p.1 p.2 hp0 r0
        (Cache.toNat_ne_of_ne _ _ (Cache.get_row_nonneg c hwf p.2 hp0).2.1 hr0 hrow)] at hw
      exact h0 w hw hne

/-- In a full row of `n` ways with distinct tags, when the tags probed since the probe of
`tb` are at most `n - 1` and include a tag `ta` absent from the row, some way holds a
tag that is neither `tb` nor one of them. -/
theorem exists_old_way (r : List (Int × Int)) (tb ta : Int) (S : List Int) (n : Nat)
    (hlen : r.length = n) (hfull : ∀ w ∈ r, w.2 ≠ -1) (hnd : (occupied_tags r).Nodup)
    (hta : ∀ w ∈ r, w.2 ≠ ta) (hmem : ta ∈ S) (hS : S.dedup.length ≤ n - 1) :
    ∃ w ∈ r, w.2 ≠ tb ∧ w.2 ∉ S := by
  by_contra hno
  push_neg at hno
  have hocc : occupied_tags r = r.map Prod.snd := by
    unfold occupied_tags
    rw [List.filter_eq_self]
    intro t ht
    obtain ⟨w, hw, rfl⟩ := List.mem_map.mp ht
    simpa using hfull w hw
  rw [hocc] at hnd
  have hcard : (r.map Prod.snd).toFinset.card = n := by
    rw [List.toFinset_card_of_nodup hnd, List.length_map, hlen]
  have hsub : (r.map Prod.snd).toFinset ⊆ insert tb (S.toFinset.erase ta) := by
    intro t ht
    rw [List.mem_toFinset] at ht
    obtain ⟨w, hw, rfl⟩ := List.mem_map.mp ht
    rw [Finset.mem_insert, Finset.mem_erase, List.mem_toFinset]
    by_cases hb : w.2 = tb
    · exact Or.inl hb
    · exact Or.inr ⟨hta w hw, hno w hw hb⟩
  have h1 := Finset.card_le_card hsub
  have h2 := Finset.card_insert_le tb (S.toFinset.erase ta)
  have h3 : (S.toFinset.erase ta).card = S.toFinset.card - 1 :=
    Finset.card_erase_of_mem (List.mem_toFinset.mpr hmem)
  have h4 : 0 < S.toFinset.card := Finset.card_pos.mpr ⟨ta, List.mem_toFinset.mpr hmem⟩
  rw [List.card_toFinset] at h3 h4
  omega

/-- One probe, made at a cycle not before `cb`, keeps the tag `tb` in row `index` when
the ways holding `tb` have lru values at least `cb`, the occupied ways holding neither
`tb` nor a tag of `S` have lru values below `cb`, and `S`, which contains the tag of
the probe when it conflicts, has at most `assoc - 1` distinct tags. -/
theorem Cache.lookup_keeps_recent (c : Cache) (hwf : c.WF) (h1 : c.assoc ≠ 1)
    (hu : c.UniqueTags) (index tb cb : Int) (htb : 0 ≤ tb) (hidx : 0 ≤ index)
    (S : List Int) (hS : S.dedup.length ≤ c.assoc.toNat - 1)
    (hex : ∃ w ∈ c.row index, w.2 = tb)
    (hnew : ∀ w ∈ c.row index, w.2 = tb → cb ≤ w.1)
    (hold : ∀ w ∈ c.row index, w.2 ≠ -1 → w.2 ≠ tb → w.2 ∉ S → w.1 < cb)
    (cc a : Int) (ha : 0 ≤ a)
    (hin : c.get_row a = index → c.tag_of a ≠ tb → c.tag_of a ∈ S) :
    ∃ w ∈ (c.cache_lookup cc a).2.row index, w.2 = tb := by
  have hi := Cache.get_row_lt_length c hwf a ha
  have hl := Cache.row_length c hwf _ hi
  by_cases hrow : c.get_row a = index
  · subst hrow
    by_cases hres : c.resident a = true
    · obtain ⟨r, _, he, _, _, htags⟩ := Cache.lookup_shape c hwf cc a ha
      rw [he, Cache.row_withRow c _ _ hi]
      obtain ⟨w, hw, hwt⟩ := hex
      have : tb ∈ r.map Prod.snd := by
        rw [htags hres]; exact List.mem_map.mpr ⟨w, hw, hwt⟩
      obtain ⟨v, hv, hvt⟩ := List.mem_map.mp this
      exact ⟨v, hv, hvt⟩
    · have hres' : c.resident a = false := by simpa using hres
      have hmiss := (Cache.holds_false_iff c _ _ hl).mp hres'
      have hne : c.tag_of a ≠ tb := by
        intro h
        obtain ⟨w, hw, hwt⟩ := hex
        exact hmiss w hw (hwt.trans h.symm)
      obtain ⟨k, hk, he, hempty, hmin⟩ :=
        Cache.lookup_miss_assoc_row c hwf cc a ha h1 hres'
      have hkmem : (c.row (c.get_row a)).getD k (0, -1) ∈ c.row (c.get_row a) := by
        rw [List.getD_eq_getElem _ _ hk]; exact List.getElem_mem _
      have hvictim : ((c.row (c.get_row a)).getD k (0, -1)).2 ≠ tb := by
        by_cases hemp : ∃ w ∈ c.row (c.get_row a), w.2 = -1
        · rw [hempty hemp]; omega
        · push_neg at hemp
          obtain ⟨wo, hwo, hwo1, hwo2⟩ :=
            exists_old_way (c.row (c.get_row a)) tb (c.tag_of a) S c.assoc.toNat hl hemp
              (hu _ (Cache.row_mem c _ hi)) hmiss (hin rfl hne) hS
          have hlt := hold wo hwo (hemp wo hwo) hwo1 hwo2
          have hle := hmin hemp wo hwo
          intro h
          have := hnew _ hkmem h
          omega
      obtain ⟨w, hw, hwt⟩ := hex
      obtain ⟨j, hj, rfl⟩ := List.getElem_of_mem hw
      have hjk : k ≠ j := by
        intro h
        subst h
        rw [List.getD_eq_getElem _ _ hk] at hvictim
        exact hvictim hwt
      rw [he, Cache.row_withRow c _ _ hi]
      have hj' : j < ((c.row (c.get_row a)).set k (cc, c.tag_of a)).length := by
        rw [List.length_set]; exact hj
      refine ⟨((c.row (c.get_row a)).set k (cc, c.tag_of a))[j], List.getElem_mem _, ?_⟩
      rw [List.getElem_set_ne hjk]
      exact hwt
  · rw [Cache.lookup_row_other c hwf cc a ha index
      (Cache.toNat_ne_of_ne _ _ (Cache.get_row_nonneg c hwf a ha).2.1 hidx hrow)]
    exact hex

/-- The block of `b`, probed at cycle `cb`, stays resident through later probes that
involve, in its row, at most `assoc - 1` distinct other tags (`S` collects the
conflicting tags probed so far). -/
theorem Cache.retention_invariant (c : Cache) (hwf : c.WF) (h1 : c.assoc ≠ 1)
    (hu : c.UniqueTags) (b cb : Int) (hb : 0 ≤ b) (S : List Int)
    (hex : ∃ w ∈ c.row (c.get_row b), w.2 = c.tag_of b)
    (hnew : ∀ w ∈ c.row (c.get_row b), w.2 = c.tag_of b → cb ≤ w.1)
    (hold : ∀ w ∈ c.row (c.get_row b), w.2 ≠ -1 → w.2 ≠ c.tag_of b → w.2 ∉ S → w.1 < cb)
    (xs : List (Int × Int)) (hxs : ∀ p ∈ xs, 0 ≤ p.2 ∧ cb ≤ p.1)
    (hfew : (S ++ c.conflicting_tags b xs).dedup.length ≤ c.assoc.toNat - 1) :
    (c.probes xs).resident b = true := by
  induction xs generalizing c S with
  | nil =>
    have hi := Cache.get_row_lt_length c hwf b hb
    exact (Cache.holds_iff c _ _ (Cache.row_length c hwf _ hi)).mpr hex
  | cons p xs ih =>
    obtain ⟨hp0, hpc⟩ := hxs p (List.mem_cons_self _ _)
    obtain ⟨_, g1, g2, g3⟩ := Cache.lookup_params c hwf p.1 p.2 hp0
    have hg : ∀ x : Int, (c.cache_lookup p.1 p.2).2.get_row x = c.get_row x := by
      intro x; unfold Cache.get_row; rw [g2, g3]
    have ht : ∀ x : Int, (c.cache_lookup p.1 p.2).2.tag_of x = c.tag_of x := by
      intro x; unfold Cache.tag_of; rw [g2, g3]
    have hidx := (Cache.get_row_nonneg c hwf b hb).2.1
    have htb := (Cache.tag_of_nonneg c hwf b hb).2
    rw [Cache.conflicting_tags_cons] at hfew
    rw [Cache.probes_cons]
    have hmem : ∀ w ∈ (c.cache_lookup p.1 p.2).2.row (c.get_row b),
        (w = (p.1, c.tag_of p.2) ∧ c.get_row p.2 = c.get_row b) ∨ w ∈ c.row (c.get_row b) := by
      intro w hw
      by_cases hrow : c.get_row p.2 = c.get_row b
      · rw [← hrow] at hw
        rcases Cache.lookup_row_mem c hwf p.1 p.2 hp0 h1 w hw with h | h
        · exact Or.inl ⟨h, hrow⟩
        · rw [hrow] at h; exact Or.inr h.1
      · rw [Cache.lookup_row_other c hwf p.1 p.2 hp0 _
          (Cache.toNat_ne_of_ne _ _ (Cache.get_row_nonneg c hwf p.2 hp0).2.1 hidx hrow)] at hw
        exact Or.inr hw
    by_cases hconf : c.get_row p.2 = c.get_row b ∧ c.tag_of p.2 ≠ c.tag_of b
    · rw [if_pos hconf] at hfew
      have hfew' : ((S ++ [c.tag_of p.2]) ++ c.conflicting_tags b xs).dedup.length
          ≤ c.assoc.toNat - 1 := by
        rw [List.append_assoc]; exact hfew
      have hS : (S ++ [c.tag_of p.2]).dedup.length ≤ c.assoc.toNat - 1 :=
        le_trans (dedup_length_mono _ _ (fun t ht => List.mem_append_left _ ht)) hfew'
      have hold' : ∀ w ∈ c.row (c.get_row b), w.2 ≠ -1 → w.2 ≠ c.tag_of b →
          w.2 ∉ S ++ [c.tag_of p.2] → w.1 < cb :=
        fun w hw h2 h3 h4 => hold w hw h2 h3 (fun h => h4 (List.mem_append_left _ h))
      have hex' := Cache.lookup_keeps_recent c hwf h1 hu (c.get_row b) (c.tag_of b) cb htb
        hidx (S ++ [c.tag_of p.2]) hS hex hnew hold' p.1 p.2 hp0
        (fun _ _ => List.mem_append_right _ (List.mem_singleton_self _))
      apply ih _ (Cache.lookup_WF c hwf p.1 p.2 hp0) (by rw [g1]; exact h1)
        (Cache.lookup_unique c hwf p.1 p.2 hp0 hu) (S ++ [c.tag_of p.2])
      · rw [hg, ht]; exact hex'
      · rw [hg, ht]
        intro w hw hwt
        rcases hmem w hw with h | h
        · rw [h.1]; exact hpc
        · exact hnew w h hwt
      · rw [hg, ht]
        intro w hw h2 h3 h4
        rcases hmem w hw with h | h
        · exfalso
          apply h4
          rw [h.1]
          exact List.mem_append_right _ (List.mem_singleton_self _)
        · exact hold' w h h2 h3 h4
      · exact fun q hq => hxs q (List.mem_cons_of_mem _ hq)
      · rw [Cache.conflicting_tags_geometry c _ b xs g2 g3, g1]; exact hfew'
    · rw [if_neg hconf] at hfew
      have hS : S.dedup.length ≤ c.assoc.toNat - 1 :=
        le_trans (dedup_length_mono _ _ (fun t ht => List.mem_append_left _ ht)) hfew
      have hex' := Cache.lookup_keeps_recent c hwf h1 hu (c.get_row b) (c.tag_of b) cb htb
        hidx S hS hex hnew hold p.1 p.2 hp0
        (fun h2 h3 => absurd ⟨h2, h3⟩ hconf)
      apply ih _ (Cache.lookup_WF c hwf p.1 p.2 hp0) (by rw [g1]; exact h1)
        (Cache.lookup_unique c hwf p.1 p.2 hp0 hu) S
      · rw [hg, ht]; exact hex'
      · rw [hg, ht]
        intro w hw hwt
        rcases hmem w hw with h | h
        · rw [h.1]; exact hpc
        · exact hnew w h hwt
      · rw [hg, ht]
        intro w hw h2 h3 h4
        rcases hmem w hw with h | h
        · exfalso
          apply hconf
          refine ⟨h.2, ?_⟩
          rw [h.1] at h3
          exact h3
        · exact hold w h h2 h3 h4
      · exact fun q hq => hxs q (List.mem_cons_of_mem _ hq)
      · rw [Cache.conflicting_tags_geometry c _ b xs g2 g3, g1]; exact hfew

theorem Cache.new_stamps_below (size assoc blocksize r0 B : Int) :
    ∀ w ∈ (Cache.new size assoc blocksize).row r0, w.2 ≠ -1 → w.1 < B := by
  intro w hw hne
  have hnil := Cache.new_occupied_nil size assoc blocksize r0
  have : w.2 ∈ occupied_tags ((Cache.new size assoc blocksize).row r0) :=
    (mem_occupied_tags _ _).mpr ⟨hne, w, hw, rfl⟩
  rw [hnil] at this
  exact absurd this (List.not_mem_nil _)

theorem Cache.conflicting_tags_nil_iff (c : Cache) (b : Int) (ps : List (Int × Int))
    (h : c.conflicting_tags b ps = []) :
    ∀ p ∈ ps, c.get_row p.2 = c.get_row b → c.tag_of p.2 = c.tag_of b := by
  intro p hp hrow
  by_contra hne
  have : c.tag_of p.2 ∈ c.conflicting_tags b ps := by
    unfold Cache.conflicting_tags
    rw [List.mem_filter]
    refine ⟨List.mem_map.mpr ⟨p, ?_, rfl⟩, by simpa using hne⟩
    rw [List.mem_filter]
    exact ⟨hp, by simpa using hrow⟩
  rw [h] at this
  exact absurd this (List.not_mem_nil _)

/-- C21: take a freshly constructed well-formed cache of associativity `n >= 1` and a
sequence of probes on non-negative addresses whose cycle counter values are strictly
increasing: the probes `pre`, then a probe of `b` at cycle `cb`, then the probes `mid`.
If the probes of `mid` that map to the row of `b` involve at most `n - 1` distinct tags
other than the tag of `b`, then the next probe of `b` (at any cycle) returns Hit. -/
theorem lru_retention (size assoc blocksize : Int)
    (hwf : (Cache.new size assoc blocksize).WF) (pre mid : List (Int × Int))
    (cb b cf : Int) (haddr : ∀ p ∈ pre ++ (cb, b) :: mid, 0 ≤ p.2)
    (hinc : ((pre ++ (cb, b) :: mid).map Prod.fst).Pairwise (fun x y => x < y))
    (hfew : ((Cache.new size assoc blocksize).conflicting_tags b mid).dedup.length
      ≤ assoc.toNat - 1) :
    (((Cache.new size assoc blocksize).probes (pre ++ (cb, b) :: mid)).cache_lookup
      cf b).1 = true := by
  have hb : 0 ≤ b :=
    haddr (cb, b) (List.mem_append_right _ (List.mem_cons_self _ _))
  rw [List.map_append, List.map_cons, List.pairwise_append, List.pairwise_cons] at hinc
  obtain ⟨_, ⟨hmidc, _⟩, hprec⟩ := hinc
  have hpre : ∀ p ∈ pre, 0 ≤ p.2 ∧ p.1 < cb := fun p hp =>
    ⟨haddr p (List.mem_append_left _ hp),
      hprec p.1 (List.mem_map.mpr ⟨p, hp, rfl⟩) cb (List.mem_cons_self _ _)⟩
  have hmid : ∀ p ∈ mid, 0 ≤ p.2 ∧ cb ≤ p.1 := fun p hp =>
    ⟨haddr p (List.mem_append_right _ (List.mem_cons_of_mem _ hp)),
      le_of_lt (hmidc p.1 (List.mem_map.mpr ⟨p, hp, rfl⟩))⟩
  obtain ⟨hwfp, g1, g2, g3⟩ :=
    Cache.probes_WF _ hwf pre (fun p hp => (hpre p hp).1)
  obtain ⟨_, k1, k2, k3⟩ :=
    Cache.lookup_params _ hwfp cb b hb
  have hwf1 := Cache.lookup_WF _ hwfp cb b hb
  have hgp : ((Cache.new size assoc blocksize).probes pre).get_row b =
      (Cache.new size assoc blocksize).get_row b := by
    unfold Cache.get_row; rw [g2, g3]
  have htp : ((Cache.new size assoc blocksize).probes pre).tag_of b =
      (Cache.new size assoc blocksize).tag_of b := by
    unfold Cache.tag_of; rw [g2, g3]
  have hg1 : ∀ x : Int,
      (((Cache.new size assoc blocksize).probes pre).cache_lookup cb b).2.get_row x =
        (Cache.new size assoc blocksize).get_row x := by
    intro x; unfold Cache.get_row; rw [k2, k3, g2, g3]
  have ht1 : ∀ x : Int,
      (((Cache.new size assoc blocksize).probes pre).cache_lookup cb b).2.tag_of x =
        (Cache.new size assoc blocksize).tag_of x := by
    intro x; unfold Cache.tag_of; rw [k2, k3, g2, g3]
  have hres1 := Cache.lookup_resident _ hwfp cb b hb
  rw [Cache.cache_lookup_fst, Cache.probes_append, Cache.probes_cons]
  by_cases h1 : assoc = 1
  · have hnil : (Cache.new size assoc blocksize).conflicting_tags b mid = [] := by
      have h0 : ((Cache.new size assoc blocksize).conflicting_tags b mid).dedup.length = 0 := by
        have e : assoc.toNat - 1 = 0 := by rw [h1]; rfl
        omega
      have := List.length_eq_zero.mp h0
      exact List.dedup_eq_nil _ |>.mp this
    have hcompat := Cache.conflicting_tags_nil_iff _ b mid hnil
    apply Cache.probes_keep_resident _ hwf1 b hb hres1
    intro p hp
    refine ⟨(hmid p hp).1, ?_⟩
    rw [hg1, hg1, ht1, ht1]
    exact hcompat p hp
  · have ha1 : (((Cache.new size assoc blocksize).probes pre).cache_lookup cb b).2.assoc ≠ 1 := by
      rw [k1, g1]; exact h1
    have hap : ((Cache.new size assoc blocksize).probes pre).assoc ≠ 1 := by
      rw [g1]; exact h1
    have hbelow := Cache.stamps_below (Cache.new size assoc blocksize) hwf h1
      ((Cache.new size assoc blocksize).get_row b) cb
      (Cache.get_row_nonneg _ hwf b hb).2.1
      (Cache.new_stamps_below size assoc blocksize _ cb) pre hpre
    have hmem := Cache.lookup_row_mem _ hwfp cb b hb hap
    rw [hgp, htp] at hmem
    have hi1 := Cache.get_row_lt_length _ hwf1 b hb
    have hl1 := Cache.row_length _ hwf1 _ hi1
    apply Cache.retention_invariant _ hwf1 ha1
      (Cache.lookup_unique _ hwfp cb b hb
        (Cache.probes_unique _ hwf (Cache.new_unique size assoc blocksize) pre
          (fun p hp => (hpre p hp).1)))
      b cb hb []
    · exact (Cache.holds_iff _ _ _ hl1).mp hres1
    · rw [hg1, ht1]
      intro w hw hwt
      rcases hmem w hw with h | h
      · rw [h]
      · exact absurd hwt h.2
    · rw [hg1, ht1]
      intro w hw h2 h3 _
      rcases hmem w hw with h | h
      · rw [h] at h3; exact absurd rfl h3
      · exact hbelow w h.1 h2
    · exact hmid
    · rw [List.nil_append, Cache.conflicting_tags_geometry (Cache.new size assoc blocksize) _
        b mid (k2.trans g2) (k3.trans g3), k1, g1]
      exact hfew

/-- C21 witness: one row of 3 ways; probes of 5, 6, 7 at cycles 1 to 3, then block 0 at
cycle 4, then 1, 2, 1 at cycles 5 to 7 (two distinct conflicting tags); the next probe
of 0 hits. -/
theorem lru_retention_witness :
    ((Cache.new 3 3 1).conflicting_tags 0 [(5, 1), (6, 2), (7, 1)]).dedup.length = 2 ∧
      (((Cache.new 3 3 1).probes
        ([(1, 5), (2, 6), (3, 7)] ++ (4, 0) :: [(5, 1), (6, 2), (7, 1)])).cache_lookup
        8 0).1 = true :=
  ⟨by decide,
    lru_retention 3 3 1 (by decide) [(1, 5), (2, 6), (3, 7)] [(5, 1), (6, 2), (7, 1)]
      4 0 8 (by decide) (by decide) (by decide)⟩

end SimCache
